import Mathlib

/-!
# Verification of the cmdline-dice parser and evaluator (dice.c / dice.h)

A shallow embedding of the dice-expression parser and evaluator from
`src/dice.c`.  C strings are modelled as `List Char` (the full
NUL-terminated buffer contents, without the terminator; C string functions
such as `strpbrk`, `strchr`, `strspn` scan to the end of the list, exactly
as the C library functions scan to the NUL).  Span lengths are `Nat`
(every length the program computes is non-negative; the one place a C
subexpression could go negative, `b_chars` in `parse_roll`, is undefined
behaviour in C and is modelled by the same truncation-at-zero the
`Nat` subtraction performs, yielding the empty string).

Errors: the C code reports errors by printing a message and returning
NULL.  The model returns `Except ParseError`, where the error value is
the first message the C code prints on that input (the C code evaluates
subparses left to right and keeps the first failure, so `Except`
short-circuiting reproduces the first printed message).

Randomness: `get_next_random()` is modelled by consuming a finite list of
raw non-negative values; each die roll is `(raw % dieSides) + 1` as in the
source.  Executors return `none` when the list is exhausted.

The recursive parser is defined with an explicit fuel argument
(`parse_f`) so that every definition is structurally recursive and hence
kernel-computable; `parse_expr`/`parse_obj` instantiate the fuel with a
bound proved sufficient (`parse_f_irrel`).
-/

/-- Mirrors `enum OpType` of dice.h. -/
inductive OpType where
  | A_OP
  | M_OP
deriving DecidableEq, Repr

/-- Mirrors `enum Operation` of dice.h. -/
inductive Operation where
  | NOOP
  | PLUS
  | MINUS
  | TIMES
  | DIVIDE
deriving DecidableEq, Repr

/-- Mirrors `enum ModifierType` of dice.h. -/
inductive ModifierType where
  | NONE
  | CHOOSE_HIGH
  | CHOOSE_LOW
  | REROLL_BELOW
  | KEEP_AND_REROLL_ABOVE
deriving DecidableEq, Repr

/-- Mirrors `struct RollModifier` of dice.h. -/
structure RollModifier where
  type : ModifierType
  constant : Int
deriving DecidableEq, Repr

/-- Mirrors `struct RollNode` of dice.h (`rollMod == NULL` is `none`). -/
structure RollNode where
  dieCount : Int
  dieSides : Int
  rollMod : Option RollModifier
deriving DecidableEq, Repr

/-- The parse tree.  dice.h has two mutually recursive structs,
`ExprList` (fields `lhList`, `obj`, `opt`, `rhList`) and `ObjNode`
(fields `roll`, `constant`, `subList`), whose recursive fields are
nullable pointers.  They are merged into one inductive so that all
recursion over trees is plainly structural; a NULL pointer is `.null`,
an `ExprList` value is an `.exprNode`, an `ObjNode` value is an
`.objNode`. -/
inductive PNode where
  | null : PNode
  | exprNode (lhList : PNode) (obj : PNode) (opt : Operation) (rhList : PNode) : PNode
  | objNode (roll : Option RollNode) (constant : Int) (subList : PNode) : PNode
deriving DecidableEq, Repr

/-- One value per distinct `print_error` message reachable from the
parser (`AllocationFailure` is omitted: the model has no OOM). -/
inductive ParseError where
  | MissingObject            -- "Missing Object."
  | MismatchedParentheses    -- "Mismatched parentheses."
  | MissingRoll              -- "Missing Roll."
  | MissingDelimiter         -- "Garbled roll (no 'd' delimiter)."
  | MissingConstant          -- "Missing constant."
  | InvalidConstant          -- "Invalid constant."
  | MissingModifier          -- "Missing Modifier."
  | InvalidModifierChar      -- "Invalid Modifier Character."
  | MissingModifierConstant  -- "Missing Modifier Constant."
deriving DecidableEq, Repr

instance {ε α : Type} [DecidableEq ε] [DecidableEq α] : DecidableEq (Except ε α)
  | .error a, .error b =>
    if h : a = b then .isTrue (by rw [h]) else .isFalse (fun hc => by cases hc; exact h rfl)
  | .error _, .ok _ => .isFalse (fun hc => by cases hc)
  | .ok _, .error _ => .isFalse (fun hc => by cases hc)
  | .ok a, .ok b =>
    if h : a = b then .isTrue (by rw [h]) else .isFalse (fun hc => by cases hc; exact h rfl)

/-! ## C string primitives -/

/-- Index of the first occurrence of `c` in the buffer (C `strchr`,
scanning the whole NUL-terminated buffer). -/
def strchr_idx (c : Char) : List Char → Option Nat
  | [] => none
  | x :: rest => if x = c then some 0 else (strchr_idx c rest).map (· + 1)

/-- Index of the first character of `set` in the buffer (C `strpbrk`,
scanning the whole NUL-terminated buffer). -/
def strpbrk_idx (set : List Char) : List Char → Option Nat
  | [] => none
  | x :: rest => if x ∈ set then some 0 else (strpbrk_idx set rest).map (· + 1)

/-- Length of the maximal prefix of the buffer drawn from `set`
(C `strspn`). -/
def strspn (set : List Char) : List Char → Nat
  | [] => 0
  | x :: rest => if x ∈ set then strspn set rest + 1 else 0

/-- The character set `"0123456789"` used by the source. -/
def digitChars : List Char :=
  ['0', '1', '2', '3', '4', '5', '6', '7', '8', '9']

/-- C `isspace` characters skipped by `atoi`. -/
def isSpaceC (c : Char) : Bool :=
  c = ' ' || c = '\t' || c = '\n' || c = '\x0b' || c = '\x0c' || c = '\r'

/-- Numeric value of the maximal leading digit run of the buffer. -/
def leadingNum : List Char → Nat → Nat
  | c :: rest, acc => if c ∈ digitChars then leadingNum rest (acc * 10 + (c.toNat - 48)) else acc
  | [], acc => acc

/-- C `atoi` on a NUL-terminated buffer: skip whitespace, optional sign,
then the maximal leading digit run (0 if there are no digits; overflow is
UB in C and is modelled by unbounded integers). -/
def atoi (s : List Char) : Int :=
  match s.dropWhile isSpaceC with
  | [] => 0
  | c :: rest =>
    if c = '-' then -(leadingNum rest 0 : Int)
    else if c = '+' then (leadingNum rest 0 : Int)
    else (leadingNum (c :: rest) 0 : Int)

/-! ## Scanner: `find_first_free_opt` (dice.c:82-106)

The C routine repeatedly `strpbrk`s for the next member of `opchars`,
stops at the first member found at position `≥ len` (or at the NUL), and
processes members found at positions `< len`: `'('` increments the depth,
`')'` decrements it (error if it would go below zero), and any other
member at depth 0 is returned.  If the scan ends with nonzero depth it is
an error.  Since characters outside `opchars` are skipped without any
effect, a character-by-character scan of the first `min len |buf|`
characters that acts only on members of `opchars` computes the same
function; that is how `ffo_aux` is written (structurally, so it is
kernel-computable).  The C routine signals failure by returning the
static sentinel string `"?"` after printing "Mismatched parentheses.";
the model returns `.error .MismatchedParentheses`. -/

def ffo_aux (opchars : List Char) : List Char → Nat → Nat → Nat → Except ParseError (Option Nat)
  | _, 0, _, depth =>
    if depth = 0 then .ok none else .error .MismatchedParentheses
  | [], _ + 1, _, depth =>
    if depth = 0 then .ok none else .error .MismatchedParentheses
  | c :: rest, len + 1, pos, depth =>
    if c ∈ opchars then
      if c = '(' then ffo_aux opchars rest len (pos + 1) (depth + 1)
      else if c = ')' then
        if depth = 0 then .error .MismatchedParentheses
        else ffo_aux opchars rest len (pos + 1) (depth - 1)
      else if depth = 0 then .ok (some pos)
      else ffo_aux opchars rest len (pos + 1) depth
    else ffo_aux opchars rest len (pos + 1) depth

/-- dice.c:82 `find_first_free_opt`. -/
def find_first_free_opt (inp : List Char) (len : Nat) (opchars : List Char) :
    Except ParseError (Option Nat) :=
  ffo_aux opchars inp len 0 0

/-! ## Parsers -/

/-- dice.c:360 `parse_operator`. -/
def parse_operator (c : Char) : Operation :=
  if c = '+' then .PLUS
  else if c = '-' then .MINUS
  else if c = '*' then .TIMES
  else if c = '/' then .DIVIDE
  else .NOOP

/-- dice.c:313 `parse_modifier`.  The first character selects the
variant; `len < 2` is "Missing Modifier Constant."; the remaining
characters are copied (`strncpy` of `len-1` chars, NUL-terminated) and
handed to `atoi` — the source performs no digit validation here. -/
def parse_modifier (inp : List Char) (len : Nat) : Except ParseError RollModifier :=
  if len = 0 then .error .MissingModifier
  else
    let ty : Option ModifierType :=
      if inp.getD 0 ' ' = 'c' then some .CHOOSE_HIGH
      else if inp.getD 0 ' ' = 'b' then some .REROLL_BELOW
      else if inp.getD 0 ' ' = 'v' then some .KEEP_AND_REROLL_ABOVE
      else if inp.getD 0 ' ' = 'w' then some .CHOOSE_LOW
      else none
    match ty with
    | none => .error .InvalidModifierChar
    | some t =>
      if len < 2 then .error .MissingModifierConstant
      else .ok { type := t, constant := atoi ((inp.drop 1).take (len - 1)) }

/-- The modifier lookup of `parse_roll` (dice.c:257-266): the first
occurrence of any of `c,b,v,w` anywhere in the buffer, taken only if it
lies inside the span; on success returns the modifier length
(`mod_chars`) and the parsed modifier. -/
def parse_roll_mod (inp : List Char) (len : Nat) :
    Except ParseError (Nat × Option RollModifier) :=
  match strpbrk_idx ['c', 'b', 'v', 'w'] inp with
  | some m =>
    if m < len then
      match parse_modifier (inp.drop m) (len - m) with
      | .error e => .error e
      | .ok md => .ok (len - m, some md)
    else .ok (0, none)
  | none => .ok (0, none)

/-- dice.c:246 `parse_roll`.  `strchr(inp,'d')` scans the whole buffer;
a hit at position `≥ len` counts as absent.  The modifier is looked up
and parsed *before* the count/sides substrings are checked, so a
modifier error is reported first, as in the source.  `b_chars`
(`len - (d+1+mod_chars)`) may be negative in C (undefined behaviour
through `STACK_ALLOC`); the `Nat` subtraction models it as an empty
sides substring. -/
def parse_roll (inp : List Char) (len : Nat) : Except ParseError RollNode :=
  if len = 0 then .error .MissingRoll
  else
    match strchr_idx 'd' inp with
    | none => .error .MissingDelimiter
    | some d =>
      if len ≤ d then .error .MissingDelimiter
      else
        match parse_roll_mod inp len with
        | .error e => .error e
        | .ok (mod_chars, md) =>
          if (inp.take d).length = 0 ∨
              ((inp.drop (d + 1)).take (len - (d + 1 + mod_chars))).length = 0 then
            .error .MissingConstant
          else if ¬((inp.take d).all (· ∈ digitChars) ∧
              ((inp.drop (d + 1)).take (len - (d + 1 + mod_chars))).all (· ∈ digitChars)) then
            .error .InvalidConstant
          else
            .ok { dieCount := atoi (inp.take d),
                  dieSides := atoi ((inp.drop (d + 1)).take (len - (d + 1 + mod_chars))),
                  rollMod := md }

/-- Operator set used by `parse_expr` for each level (dice.c:118-121). -/
def opcharsOf (t : OpType) : List Char :=
  if t = OpType.M_OP then ['(', ')', '*', '/'] else ['(', ')', '+', '-']

/-- Tag distinguishing the two mutually recursive parse functions
(`parse_expr` at a level, and `parse_obj`) inside the fueled `parse_f`. -/
inductive PKind where
  | kexpr (t : OpType)
  | kobj
deriving DecidableEq, Repr

/-- Fueled combination of dice.c:112 `parse_expr` and dice.c:185
`parse_obj` (they are mutually recursive; merging them over the `PKind`
tag keeps the recursion structural in the fuel).  With fuel `0` it
returns a dummy error; `parse_f_irrel` shows any fuel `≥ 3*len + 3` is
enough, and the wrappers below instantiate it.

`kexpr` branch: empty span is "Missing Object."; a scanner failure
aborts the parse (in C the sentinel makes `parse_operator` yield `NOOP`,
which forces the NULL return; the first message printed is the
scanner's).  With an operator at `p`: the left operand is an Object for
`M_OP` and a `M_OP` expression for `A_OP` (dice.c:129-133), and the
right continuation is the rest of the span at the *same* level
(dice.c:135).  With no operator: the whole span becomes a singlet.

`kobj` branch: leading `'('` requires `inp[len-1] = ')'` and parses the
interior at `A_OP` level; an all-digit span (tested with `strspn` over
the whole NUL-terminated buffer, dice.c:212) is a constant; anything
else is delegated to `parse_roll`. -/
def parse_f : Nat → PKind → List Char → Nat → Except ParseError PNode
  | 0, _, _, _ => .error .MissingObject
  | fuel + 1, .kexpr t, inp, len =>
    if len = 0 then .error .MissingObject
    else
      match find_first_free_opt inp len (opcharsOf t) with
      | .error e => .error e
      | .ok none =>
        match t with
        | .M_OP =>
          match parse_f fuel .kobj inp len with
          | .error e => .error e
          | .ok o => .ok (.exprNode .null o .NOOP .null)
        | .A_OP =>
          match parse_f fuel (.kexpr .M_OP) inp len with
          | .error e => .error e
          | .ok l => .ok (.exprNode l .null .NOOP .null)
      | .ok (some p) =>
        let leftE : Except ParseError (PNode × PNode) :=
          match t with
          | .M_OP =>
            match parse_f fuel .kobj inp p with
            | .error e => .error e
            | .ok o => .ok (.null, o)
          | .A_OP =>
            match parse_f fuel (.kexpr .M_OP) inp p with
            | .error e => .error e
            | .ok l => .ok (l, .null)
        match leftE with
        | .error e => .error e
        | .ok (lh, ob) =>
          match parse_f fuel (.kexpr t) (inp.drop (p + 1)) (len - (p + 1)) with
          | .error e => .error e
          | .ok rh =>
            if parse_operator (inp.getD p ' ') = .NOOP then .error .MissingObject
            else .ok (.exprNode lh ob (parse_operator (inp.getD p ' ')) rh)
  | fuel + 1, .kobj, inp, len =>
    if len = 0 then .error .MissingObject
    else if inp.getD 0 ' ' = '(' then
      if inp.getD (len - 1) ' ' ≠ ')' then .error .MismatchedParentheses
      else
        match parse_f fuel (.kexpr .A_OP) (inp.drop 1) (len - 2) with
        | .error e => .error e
        | .ok sub => .ok (.objNode none 0 sub)
    else if strspn digitChars inp = len then
      .ok (.objNode none (atoi (inp.take len)) .null)
    else
      match parse_roll inp len with
      | .error e => .error e
      | .ok r => .ok (.objNode (some r) 0 .null)

/-- dice.c:112 `parse_expr` (fuel instantiated with a sufficient bound). -/
def parse_expr (inp : List Char) (len : Nat) (t : OpType) : Except ParseError PNode :=
  parse_f (3 * len + 3) (.kexpr t) inp len

/-- dice.c:185 `parse_obj` (fuel instantiated with a sufficient bound). -/
def parse_obj (inp : List Char) (len : Nat) : Except ParseError PNode :=
  parse_f (3 * len + 1) .kobj inp len

/-! ## Evaluator and roll executors (dice.c:382-568)

The pseudo-random source `get_next_random()` (non-negative `int`s) is
modelled by a finite list of raw values; each executor consumes from the
front and returns `none` if the list runs out.  A die draw is
`(get_next_random() % dieSides) + 1` (dice.c:438 etc.); for the
non-negative raw values the C `%` agrees with `Int.emod`.  The `verbose`
printing is a pure side channel and is not modelled. -/

/-- One die draw from a raw random value: `(raw % dieSides) + 1`. -/
def draw (dieSides : Int) (raw : Nat) : Int :=
  (raw : Int) % dieSides + 1

/-- dice.c:423 `sum_up`: left-to-right summation of the rolls buffer. -/
def sum_up (rolls : List Int) : Int :=
  rolls.foldl (· + ·) 0

/-- Draw loop of dice.c:432 `execute_basic_roll`. -/
def basic_loop (dieSides : Int) : Nat → List Nat → Option (List Int × List Nat)
  | 0, rng => some ([], rng)
  | n + 1, rng =>
    match rng with
    | [] => none
    | r :: rest =>
      match basic_loop dieSides n rest with
      | none => none
      | some (rolls, rng') => some (draw dieSides r :: rolls, rng')

/-- dice.c:432 `execute_basic_roll` (a non-positive `dieCount` runs the
loop zero times, as in C). -/
def execute_basic_roll (dieCount dieSides : Int) (rng : List Nat) : Option (Int × List Nat) :=
  match basic_loop dieSides dieCount.toNat rng with
  | none => none
  | some (rolls, rng') => some (sum_up rolls, rng')

/-- dice.c:447 `compare_roll_high`: `*r2 - *r1` (descending order for
`qsort`). -/
def compare_roll_high (r1 r2 : Int) : Int := r2 - r1

/-- dice.c:452 `compare_roll_low`: `*r1 - *r2` (ascending order for
`qsort`). -/
def compare_roll_low (r1 r2 : Int) : Int := r1 - r2

/-- `qsort(buf, k, sizeof(int), comp)`: the buffer sorted so that
`comp a b ≤ 0` holds along it.  For the two comparators above
`comp a b = 0` forces `a = b`, so the sorted list is unique and any
conforming `qsort` produces exactly this list; insertion sort is used as
the executable witness. -/
def csort (comp : Int → Int → Int) (xs : List Int) : List Int :=
  xs.insertionSort (fun a b => comp a b ≤ 0)

/-- One iteration of the dice.c:469 loop body, acting on the list of
buffer slots written so far (`chosen` in the source is its length):
while fewer than `nChoose` slots are filled the roll is appended
(dice.c:475); afterwards the roll is placed in the scratch slot
`rolls[nChoose]` and the whole `nChoose+1`-slot buffer is re-sorted,
keeping the first `nChoose` slots (dice.c:478-479). -/
def choose_step (comp : Int → Int → Int) (n : Nat) (written : List Int) (roll : Int) :
    List Int :=
  if written.length < n then written ++ [roll]
  else (csort comp (written ++ [roll])).take n

/-- Draw loop of dice.c:458 `execute_choose_n_roll`. -/
def choose_loop (comp : Int → Int → Int) (n : Nat) (dieSides : Int) :
    Nat → List Int → List Nat → Option (List Int × List Nat)
  | 0, written, rng => some (written, rng)
  | count + 1, written, rng =>
    match rng with
    | [] => none
    | r :: rest => choose_loop comp n dieSides count (choose_step comp n written (draw dieSides r)) rest

/-- dice.c:458 `execute_choose_n_roll`.  The C buffer
`STACK_ALLOC(int, rolls, nChoose+1)` is *uninitialized*; when
`dieCount < nChoose` the final `sum_up(rolls, nChoose)` (dice.c:489)
reads slots that were never written.  The model exposes those
indeterminate slot contents as the `garbage` parameter: the summed
buffer prefix is `(written ++ garbage).take nChoose`, so `garbage`
stands for the initial contents of the slots beyond the last one
written.  Whenever `dieCount ≥ nChoose` the result is independent of
`garbage`. -/
def execute_choose_n_roll (dieCount dieSides nChoose : Int) (comp : Int → Int → Int)
    (garbage : List Int) (rng : List Nat) : Option (Int × List Nat) :=
  match choose_loop comp nChoose.toNat dieSides dieCount.toNat [] rng with
  | none => none
  | some (written, rng') => some (sum_up ((written ++ garbage).take nChoose.toNat), rng')

/-- The `while (roll <= rerollThresh)` loop of dice.c:503: keep
redrawing while the current value is at or below the threshold. -/
def reroll_while (dieSides rerollThresh roll : Int) : List Nat → Option (Int × List Nat)
  | [] => if roll ≤ rerollThresh then none else some (roll, [])
  | r :: rest =>
    if roll ≤ rerollThresh then reroll_while dieSides rerollThresh (draw dieSides r) rest
    else some (roll, r :: rest)

/-- Per-die loop of dice.c:493 `execute_reroll_below_roll`. -/
def reroll_loop (dieSides rerollThresh : Int) : Nat → List Nat → Option (List Int × List Nat)
  | 0, rng => some ([], rng)
  | n + 1, rng =>
    match rng with
    | [] => none
    | r :: rest =>
      match reroll_while dieSides rerollThresh (draw dieSides r) rest with
      | none => none
      | some (v, rng') =>
        match reroll_loop dieSides rerollThresh n rng' with
        | none => none
        | some (vs, rng'') => some (v :: vs, rng'')

/-- dice.c:493 `execute_reroll_below_roll`. -/
def execute_reroll_below_roll (dieCount dieSides rerollThresh : Int) (rng : List Nat) :
    Option (Int × List Nat) :=
  match reroll_loop dieSides rerollThresh dieCount.toNat rng with
  | none => none
  | some (vs, rng') => some (sum_up vs, rng')

/-- The `while (roll >= explodeThresh)` loop of dice.c:533: while the
most recent draw is at or above the threshold, draw again and add it to
the running per-die total. -/
def explode_while (dieSides explodeThresh total roll : Int) : List Nat → Option (Int × List Nat)
  | [] => if explodeThresh ≤ roll then none else some (total, [])
  | r :: rest =>
    if explodeThresh ≤ roll then
      explode_while dieSides explodeThresh (total + draw dieSides r) (draw dieSides r) rest
    else some (total, r :: rest)

/-- Per-die loop of dice.c:521 `execute_exploding_roll`. -/
def explode_loop (dieSides explodeThresh : Int) : Nat → List Nat → Option (List Int × List Nat)
  | 0, rng => some ([], rng)
  | n + 1, rng =>
    match rng with
    | [] => none
    | r :: rest =>
      match explode_while dieSides explodeThresh (draw dieSides r) (draw dieSides r) rest with
      | none => none
      | some (t, rng') =>
        match explode_loop dieSides explodeThresh n rng' with
        | none => none
        | some (ts, rng'') => some (t :: ts, rng'')

/-- dice.c:521 `execute_exploding_roll`. -/
def execute_exploding_roll (dieCount dieSides explodeThresh : Int) (rng : List Nat) :
    Option (Int × List Nat) :=
  match explode_loop dieSides explodeThresh dieCount.toNat rng with
  | none => none
  | some (ts, rng') => some (sum_up ts, rng')

/-- dice.c:552 `execute_roll`: dispatch on the modifier.  For the
choose-N strategies the uninitialized buffer contents are indeterminate
in C; the pipeline passes all-zero stand-in `garbage` (any value is as
faithful; whenever `dieCount ≥ nChoose` the result does not depend on
it). -/
def execute_roll (roll : RollNode) (rng : List Nat) : Option (Int × List Nat) :=
  match roll.rollMod with
  | some m =>
    match m.type with
    | .CHOOSE_HIGH =>
      execute_choose_n_roll roll.dieCount roll.dieSides m.constant compare_roll_high
        (List.replicate (m.constant.toNat + 1) 0) rng
    | .CHOOSE_LOW =>
      execute_choose_n_roll roll.dieCount roll.dieSides m.constant compare_roll_low
        (List.replicate (m.constant.toNat + 1) 0) rng
    | .REROLL_BELOW => execute_reroll_below_roll roll.dieCount roll.dieSides m.constant rng
    | .KEEP_AND_REROLL_ABOVE => execute_exploding_roll roll.dieCount roll.dieSides m.constant rng
    | .NONE => some (0, rng)  -- dice.c:564 "Should not happen"
  | none => execute_basic_roll roll.dieCount roll.dieSides rng

/-- dice.c:382 `execute_expr` and dice.c:412 `execute_obj`, merged over
the `PNode` constructors (they are mutually recursive in C).  An
`exprNode` evaluates `lhList` if non-NULL, else its `obj`
(dice.c:384-388); a singlet (`opt = NOOP` and `rhList` NULL,
dice.c:376-377) returns the left result; otherwise the right
continuation is evaluated and combined — C `/` is truncation toward
zero, i.e. `Int.div` (division by zero is UB in C; `Int.div` by zero
yields 0).  An `objNode` dispatches roll / sub-expression / constant in
the source's order (dice.c:413-419).  Evaluating a NULL node or the
`opt` = `NOOP`-with-continuation case is fatal in C (`exit(1)`) and is
modelled as `none`. -/
def execute_node : PNode → List Nat → Option (Int × List Nat)
  | .null, _ => none
  | .exprNode lh ob op rh, rng =>
    let lhRes := if lh = .null then execute_node ob rng else execute_node lh rng
    match lhRes with
    | none => none
    | some (lv, rng1) =>
      if op = .NOOP ∧ rh = .null then some (lv, rng1)
      else
        match execute_node rh rng1 with
        | none => none
        | some (rv, rng2) =>
          match op with
          | .PLUS => some (lv + rv, rng2)
          | .MINUS => some (lv - rv, rng2)
          | .TIMES => some (lv * rv, rng2)
          | .DIVIDE => some (Int.tdiv lv rv, rng2)
          | .NOOP => none
  | .objNode roll c sub, rng =>
    match roll with
    | some r => execute_roll r rng
    | none => if sub = .null then some (c, rng) else execute_node sub rng

/-- dice.c:382 `execute_expr` (see `execute_node`). -/
def execute_expr (e : PNode) (rng : List Nat) : Option (Int × List Nat) :=
  execute_node e rng

/-- dice.c:412 `execute_obj` (see `execute_node`). -/
def execute_obj (o : PNode) (rng : List Nat) : Option (Int × List Nat) :=
  execute_node o rng

/-- One iteration of the command-line driver (dice.c:642-649): parse the
expression span at `A_OP` level and, on success, execute the tree. -/
def parse_and_exec (inp : List Char) (rng : List Nat) : Option (Int × List Nat) :=
  match parse_expr inp inp.length OpType.A_OP with
  | .error _ => none
  | .ok t => execute_node t rng

/-! ## Scanner position bound and fuel irrelevance -/

/-- A position returned by the scanner lies inside the scanned window. -/
theorem ffo_aux_some_lt (opchars : List Char) :
    ∀ (inp : List Char) (len pos depth p : Nat),
      ffo_aux opchars inp len pos depth = .ok (some p) → pos ≤ p ∧ p < pos + len := by
  intro inp
  induction inp with
  | nil =>
    intro len pos depth p h
    cases len <;> simp only [ffo_aux] at h <;> split at h <;> simp_all
  | cons c rest ih =>
    intro len pos depth p h
    cases len with
    | zero => simp only [ffo_aux] at h; split at h <;> simp_all
    | succ n =>
      simp only [ffo_aux] at h
      split at h
      · split at h
        · have := ih n (pos + 1) (depth + 1) p h; omega
        · split at h
          · split at h
            · simp at h
            · have := ih n (pos + 1) (depth - 1) p h; omega
          · split at h
            · simp only [Except.ok.injEq, Option.some.injEq] at h; omega
            · have := ih n (pos + 1) depth p h; omega
      · have := ih n (pos + 1) depth p h; omega

/-- A position returned by `find_first_free_opt` is `< len`. -/
theorem find_some_lt {inp : List Char} {len : Nat} {opchars : List Char} {p : Nat}
    (h : find_first_free_opt inp len opchars = .ok (some p)) : p < len := by
  have := ffo_aux_some_lt opchars inp len 0 0 p h
  omega

/-- Fuel sufficient for `parse_f` at a given kind and span length. -/
def pmu : PKind → Nat → Nat
  | .kexpr .A_OP, len => 3 * len + 3
  | .kexpr .M_OP, len => 3 * len + 2
  | .kobj, len => 3 * len + 1

/-- `parse_f` is independent of the fuel once the fuel is at least
`pmu kind len`; hence the fixed fuel used by `parse_expr`/`parse_obj` is
sufficient. -/
theorem parse_f_irrel :
    ∀ (f g : Nat) (kind : PKind) (inp : List Char) (len : Nat),
      pmu kind len ≤ f → pmu kind len ≤ g →
      parse_f f kind inp len = parse_f g kind inp len := by
  intro f
  induction f using Nat.strong_induction_on with
  | _ f ih =>
    intro g kind inp len hf hg
    have hpm : 1 ≤ pmu kind len := by
      cases kind with
      | kexpr t => cases t <;> simp [pmu]
      | kobj => simp [pmu]
    obtain ⟨f', rfl⟩ : ∃ f', f = f' + 1 := ⟨f - 1, by omega⟩
    obtain ⟨g', rfl⟩ : ∃ g', g = g' + 1 := ⟨g - 1, by omega⟩
    cases kind with
    | kobj =>
      simp only [pmu] at hf hg
      by_cases h0 : len = 0
      · subst h0; simp [parse_f]
      · have hrec := ih f' (by omega) g' (.kexpr .A_OP) (inp.drop 1) (len - 2)
          (by simp [pmu]; omega) (by simp [pmu]; omega)
        simp only [parse_f, if_neg h0, hrec]
    | kexpr t =>
      by_cases h0 : len = 0
      · subst h0; simp [parse_f]
      · rcases hfind : find_first_free_opt inp len (opcharsOf t) with e | _ | p
        · cases t <;> simp only [parse_f, if_neg h0, hfind]
        · cases t with
          | A_OP =>
            simp only [pmu] at hf hg
            have hrec := ih f' (by omega) g' (.kexpr .M_OP) inp len
              (by simp [pmu]; omega) (by simp [pmu]; omega)
            simp only [parse_f, if_neg h0, hfind, hrec]
          | M_OP =>
            simp only [pmu] at hf hg
            have hrec := ih f' (by omega) g' .kobj inp len
              (by simp [pmu]; omega) (by simp [pmu]; omega)
            simp only [parse_f, if_neg h0, hfind, hrec]
        · have hplt : p < len := find_some_lt hfind
          cases t with
          | A_OP =>
            simp only [pmu] at hf hg
            have h1 := ih f' (by omega) g' (.kexpr .M_OP) inp p
              (by simp [pmu]; omega) (by simp [pmu]; omega)
            have h2 := ih f' (by omega) g' (.kexpr .A_OP) (inp.drop (p + 1)) (len - (p + 1))
              (by simp [pmu]; omega) (by simp [pmu]; omega)
            simp only [parse_f, if_neg h0, hfind, h1, h2]
          | M_OP =>
            simp only [pmu] at hf hg
            have h1 := ih f' (by omega) g' .kobj inp p
              (by simp [pmu]; omega) (by simp [pmu]; omega)
            have h2 := ih f' (by omega) g' (.kexpr .M_OP) (inp.drop (p + 1)) (len - (p + 1))
              (by simp [pmu]; omega) (by simp [pmu]; omega)
            simp only [parse_f, if_neg h0, hfind, h1, h2]

/-- The one-step unfolding of `parse_expr`, with the recursive
occurrences expressed through the `parse_expr` / `parse_obj` wrappers.
`parse_expr_eq` proves it equal to `parse_expr`. -/
def parse_expr_body (inp : List Char) (len : Nat) (t : OpType) : Except ParseError PNode :=
  if len = 0 then .error .MissingObject
  else
    match find_first_free_opt inp len (opcharsOf t) with
    | .error e => .error e
    | .ok none =>
      match t with
      | .M_OP =>
        match parse_obj inp len with
        | .error e => .error e
        | .ok o => .ok (.exprNode .null o .NOOP .null)
      | .A_OP =>
        match parse_expr inp len .M_OP with
        | .error e => .error e
        | .ok l => .ok (.exprNode l .null .NOOP .null)
    | .ok (some p) =>
      let leftE : Except ParseError (PNode × PNode) :=
        match t with
        | .M_OP =>
          match parse_obj inp p with
          | .error e => .error e
          | .ok o => .ok (.null, o)
        | .A_OP =>
          match parse_expr inp p .M_OP with
          | .error e => .error e
          | .ok l => .ok (l, .null)
      match leftE with
      | .error e => .error e
      | .ok (lh, ob) =>
        match parse_expr (inp.drop (p + 1)) (len - (p + 1)) t with
        | .error e => .error e
        | .ok rh =>
          if parse_operator (inp.getD p ' ') = .NOOP then .error .MissingObject
          else .ok (.exprNode lh ob (parse_operator (inp.getD p ' ')) rh)

/-- The one-step unfolding of `parse_obj`, with the recursive occurrence
expressed through the `parse_expr` wrapper.  `parse_obj_eq` proves it
equal to `parse_obj`. -/
def parse_obj_body (inp : List Char) (len : Nat) : Except ParseError PNode :=
  if len = 0 then .error .MissingObject
  else if inp.getD 0 ' ' = '(' then
    if inp.getD (len - 1) ' ' ≠ ')' then .error .MismatchedParentheses
    else
      match parse_expr (inp.drop 1) (len - 2) .A_OP with
      | .error e => .error e
      | .ok sub => .ok (.objNode none 0 sub)
  else if strspn digitChars inp = len then
    .ok (.objNode none (atoi (inp.take len)) .null)
  else
    match parse_roll inp len with
    | .error e => .error e
    | .ok r => .ok (.objNode (some r) 0 .null)

/-- One-step unfolding of `parse_f` at `kobj` (holds definitionally). -/
theorem parse_f_step_kobj (fuel : Nat) (inp : List Char) (len : Nat) :
    parse_f (fuel + 1) .kobj inp len =
      (if len = 0 then .error .MissingObject
      else if inp.getD 0 ' ' = '(' then
        if inp.getD (len - 1) ' ' ≠ ')' then .error .MismatchedParentheses
        else
          match parse_f fuel (.kexpr .A_OP) (inp.drop 1) (len - 2) with
          | .error e => .error e
          | .ok sub => .ok (.objNode none 0 sub)
      else if strspn digitChars inp = len then
        .ok (.objNode none (atoi (inp.take len)) .null)
      else
        match parse_roll inp len with
        | .error e => .error e
        | .ok r => .ok (.objNode (some r) 0 .null)) := rfl

/-- One-step unfolding of `parse_f` at `kexpr` (holds definitionally). -/
theorem parse_f_step_kexpr (fuel : Nat) (t : OpType) (inp : List Char) (len : Nat) :
    parse_f (fuel + 1) (.kexpr t) inp len =
      (if len = 0 then .error .MissingObject
      else
        match find_first_free_opt inp len (opcharsOf t) with
        | .error e => .error e
        | .ok none =>
          match t with
          | .M_OP =>
            match parse_f fuel .kobj inp len with
            | .error e => .error e
            | .ok o => .ok (.exprNode .null o .NOOP .null)
          | .A_OP =>
            match parse_f fuel (.kexpr .M_OP) inp len with
            | .error e => .error e
            | .ok l => .ok (.exprNode l .null .NOOP .null)
        | .ok (some p) =>
          let leftE : Except ParseError (PNode × PNode) :=
            match t with
            | .M_OP =>
              match parse_f fuel .kobj inp p with
              | .error e => .error e
              | .ok o => .ok (.null, o)
            | .A_OP =>
              match parse_f fuel (.kexpr .M_OP) inp p with
              | .error e => .error e
              | .ok l => .ok (l, .null)
          match leftE with
          | .error e => .error e
          | .ok (lh, ob) =>
            match parse_f fuel (.kexpr t) (inp.drop (p + 1)) (len - (p + 1)) with
            | .error e => .error e
            | .ok rh =>
              if parse_operator (inp.getD p ' ') = .NOOP then .error .MissingObject
              else .ok (.exprNode lh ob (parse_operator (inp.getD p ' ')) rh)) := rfl

theorem parse_obj_eq (inp : List Char) (len : Nat) :
    parse_obj inp len = parse_obj_body inp len := by
  have hstep : parse_obj inp len = parse_f (3 * len + 1) .kobj inp len := rfl
  rw [hstep, parse_f_step_kobj]
  unfold parse_obj_body
  by_cases h0 : len = 0
  · simp [h0]
  · have hrec : parse_f (3 * len) (.kexpr .A_OP) (inp.drop 1) (len - 2)
        = parse_expr (inp.drop 1) (len - 2) .A_OP := by
      unfold parse_expr
      exact parse_f_irrel _ _ _ _ _ (by simp only [pmu]; omega) (by simp only [pmu]; omega)
    rw [hrec]

theorem parse_expr_eq (inp : List Char) (len : Nat) (t : OpType) :
    parse_expr inp len t = parse_expr_body inp len t := by
  have hstep : parse_expr inp len t = parse_f (3 * len + 2 + 1) (.kexpr t) inp len := rfl
  rw [hstep, parse_f_step_kexpr]
  unfold parse_expr_body
  by_cases h0 : len = 0
  · simp [h0]
  · simp only [if_neg h0]
    rcases hfind : find_first_free_opt inp len (opcharsOf t) with e | _ | p
    · simp only [hfind]
    · simp only [hfind]
      cases t with
      | A_OP =>
        have hrec : parse_f (3 * len + 2) (.kexpr .M_OP) inp len = parse_expr inp len .M_OP := by
          unfold parse_expr
          exact parse_f_irrel _ _ _ _ _ (by simp only [pmu]; omega) (by simp only [pmu]; omega)
        rw [hrec]
      | M_OP =>
        have hrec : parse_f (3 * len + 2) .kobj inp len = parse_obj inp len := by
          unfold parse_obj
          exact parse_f_irrel _ _ _ _ _ (by simp only [pmu]; omega) (by simp only [pmu]; omega)
        rw [hrec]
    · have hplt : p < len := find_some_lt hfind
      simp only [hfind]
      cases t with
      | A_OP =>
        have h1 : parse_f (3 * len + 2) (.kexpr .M_OP) inp p = parse_expr inp p .M_OP := by
          unfold parse_expr
          exact parse_f_irrel _ _ _ _ _ (by simp only [pmu]; omega) (by simp only [pmu]; omega)
        have h2 : parse_f (3 * len + 2) (.kexpr .A_OP) (inp.drop (p + 1)) (len - (p + 1))
            = parse_expr (inp.drop (p + 1)) (len - (p + 1)) .A_OP := by
          unfold parse_expr
          exact parse_f_irrel _ _ _ _ _ (by simp only [pmu]; omega) (by simp only [pmu]; omega)
        rw [h1, h2]
      | M_OP =>
        have h1 : parse_f (3 * len + 2) .kobj inp p = parse_obj inp p := by
          unfold parse_obj
          exact parse_f_irrel _ _ _ _ _ (by simp only [pmu]; omega) (by simp only [pmu]; omega)
        have h2 : parse_f (3 * len + 2) (.kexpr .M_OP) (inp.drop (p + 1)) (len - (p + 1))
            = parse_expr (inp.drop (p + 1)) (len - (p + 1)) .M_OP := by
          unfold parse_expr
          exact parse_f_irrel _ _ _ _ _ (by simp only [pmu]; omega) (by simp only [pmu]; omega)
        rw [h1, h2]

/-! ## Structure of a successful parse at an operator split -/

/-- When the scanner finds a depth-0 operator at `p` and the parse
succeeds, the resulting node carries the operator parsed at `p`, its
right continuation is the successful parse of the text after the
operator **at the same level**, and its left operand is a `M_OP`
expression (for `A_OP`) resp. a single Object (for `M_OP`). -/
theorem parse_expr_found_shape (inp : List Char) (len : Nat) (t : OpType) (p : Nat) (e : PNode)
    (hfind : find_first_free_opt inp len (opcharsOf t) = .ok (some p))
    (hparse : parse_expr inp len t = .ok e) :
    ∃ lh ob rh,
      e = .exprNode lh ob (parse_operator (inp.getD p ' ')) rh ∧
      parse_expr (inp.drop (p + 1)) (len - (p + 1)) t = .ok rh ∧
      ((t = .A_OP ∧ ob = .null ∧ parse_expr inp p .M_OP = .ok lh) ∨
       (t = .M_OP ∧ lh = .null ∧ parse_obj inp p = .ok ob)) := by
  by_cases h0 : len = 0
  · subst h0
    simp [find_first_free_opt, ffo_aux] at hfind
  · rw [parse_expr_eq] at hparse
    unfold parse_expr_body at hparse
    rw [if_neg h0] at hparse
    simp only [hfind] at hparse
    cases t with
    | A_OP =>
      rcases hL : parse_expr inp p .M_OP with eL | l
      · simp only [hL] at hparse
        exact Except.noConfusion hparse
      · simp only [hL] at hparse
        rcases hR : parse_expr (inp.drop (p + 1)) (len - (p + 1)) .A_OP with eR | rh
        · simp only [hR] at hparse
          exact Except.noConfusion hparse
        · simp only [hR] at hparse
          by_cases hop : parse_operator (inp.getD p ' ') = .NOOP
          · simp only [if_pos hop] at hparse
            exact Except.noConfusion hparse
          · simp only [if_neg hop, Except.ok.injEq] at hparse
            exact ⟨l, .null, rh, hparse.symm, rfl, Or.inl ⟨rfl, rfl, rfl⟩⟩
    | M_OP =>
      rcases hL : parse_obj inp p with eL | o
      · simp only [hL] at hparse
        exact Except.noConfusion hparse
      · simp only [hL] at hparse
        rcases hR : parse_expr (inp.drop (p + 1)) (len - (p + 1)) .M_OP with eR | rh
        · simp only [hR] at hparse
          exact Except.noConfusion hparse
        · simp only [hR] at hparse
          by_cases hop : parse_operator (inp.getD p ' ') = .NOOP
          · simp only [if_pos hop] at hparse
            exact Except.noConfusion hparse
          · simp only [if_neg hop, Except.ok.injEq] at hparse
            exact ⟨.null, o, rh, hparse.symm, rfl, Or.inr ⟨rfl, rfl, rfl⟩⟩

/-! ## Claim C2: right-associative grouping of same-precedence chains -/

/-- C2: chains of same-precedence operators group to the right.  When
the scanner finds a depth-0 operator of the current level at position
`p` and the parse succeeds, the produced node's right-hand continuation
is the successful parse of the text after the operator at the *same*
level; in particular `"1-2-3"` parses as `1-(2-3)` and evaluates to `2`,
and `"2-3-4"` evaluates to `3`. -/
theorem C2_right_associative :
    (∀ (inp : List Char) (len : Nat) (t : OpType) (p : Nat) (e : PNode),
        find_first_free_opt inp len (opcharsOf t) = .ok (some p) →
        parse_expr inp len t = .ok e →
        ∃ lh ob rh, e = .exprNode lh ob (parse_operator (inp.getD p ' ')) rh ∧
          parse_expr (inp.drop (p + 1)) (len - (p + 1)) t = .ok rh) ∧
    parse_and_exec ['1', '-', '2', '-', '3'] [] = some (2, []) ∧
    parse_and_exec ['2', '-', '3', '-', '4'] [] = some (3, []) := by
  refine ⟨?_, by decide, by decide⟩
  intro inp len t p e hfind hparse
  obtain ⟨lh, ob, rh, he, hrh, _⟩ := parse_expr_found_shape inp len t p e hfind hparse
  exact ⟨lh, ob, rh, he, hrh⟩

/-- The tree the model parses for `"1-2-3"` (used by the C2 witness). -/
def c2tree : PNode :=
  .exprNode (.exprNode .null (.objNode none 1 .null) .NOOP .null) .null .MINUS
    (.exprNode (.exprNode .null (.objNode none 2 .null) .NOOP .null) .null .MINUS
      (.exprNode (.exprNode .null (.objNode none 3 .null) .NOOP .null) .null .NOOP .null))

theorem C2_right_associative_witness :
    find_first_free_opt ['1', '-', '2', '-', '3'] 5 (opcharsOf .A_OP) = .ok (some 1) ∧
    parse_expr ['1', '-', '2', '-', '3'] 5 .A_OP = .ok c2tree ∧
    ∃ lh ob rh,
      c2tree = .exprNode lh ob (parse_operator (['1', '-', '2', '-', '3'].getD 1 ' ')) rh ∧
      parse_expr (['1', '-', '2', '-', '3'].drop 2) (5 - 2) .A_OP = .ok rh :=
  ⟨by decide, by decide,
    C2_right_associative.1 ['1', '-', '2', '-', '3'] 5 .A_OP 1 c2tree (by decide) (by decide)⟩

/-! ## Claim C3: multiplicative binds tighter than additive -/

/-- C3: precedence is encoded by the asymmetric recursion.  At the
additive level an operator split parses its left operand by recursing
into the multiplicative level (the node's `obj` field stays NULL); at
the multiplicative level an operator split parses its left operand as a
single Object (the node's `lhList` field stays NULL — the multiplicative
parser never recurses into itself for a left operand).  Consequently
`"2+3*4"` evaluates to `14` and `"(2+3)*4"` evaluates to `20`. -/
theorem C3_precedence :
    (∀ (inp : List Char) (len p : Nat) (e : PNode),
        find_first_free_opt inp len (opcharsOf .A_OP) = .ok (some p) →
        parse_expr inp len .A_OP = .ok e →
        ∃ lh rh, e = .exprNode lh .null (parse_operator (inp.getD p ' ')) rh ∧
          parse_expr inp p .M_OP = .ok lh) ∧
    (∀ (inp : List Char) (len p : Nat) (e : PNode),
        find_first_free_opt inp len (opcharsOf .M_OP) = .ok (some p) →
        parse_expr inp len .M_OP = .ok e →
        ∃ ob rh, e = .exprNode .null ob (parse_operator (inp.getD p ' ')) rh ∧
          parse_obj inp p = .ok ob) ∧
    parse_and_exec ['2', '+', '3', '*', '4'] [] = some (14, []) ∧
    parse_and_exec ['(', '2', '+', '3', ')', '*', '4'] [] = some (20, []) := by
  refine ⟨?_, ?_, by decide, by decide⟩
  · intro inp len p e hfind hparse
    obtain ⟨lh, ob, rh, he, _, hdisj⟩ := parse_expr_found_shape inp len .A_OP p e hfind hparse
    rcases hdisj with ⟨_, hob, hlh⟩ | ⟨habs, _, _⟩
    · subst hob
      exact ⟨lh, rh, he, hlh⟩
    · exact absurd habs (by decide)
  · intro inp len p e hfind hparse
    obtain ⟨lh, ob, rh, he, _, hdisj⟩ := parse_expr_found_shape inp len .M_OP p e hfind hparse
    rcases hdisj with ⟨habs, _, _⟩ | ⟨_, hlh, hob⟩
    · exact absurd habs (by decide)
    · subst hlh
      exact ⟨ob, rh, he, hob⟩

/-- The tree the model parses for `"2+3*4"` (used by the C3 witness). -/
def c3tree : PNode :=
  .exprNode (.exprNode .null (.objNode none 2 .null) .NOOP .null) .null .PLUS
    (.exprNode
      (.exprNode .null (.objNode none 3 .null) .TIMES
        (.exprNode .null (.objNode none 4 .null) .NOOP .null))
      .null .NOOP .null)

/-- The tree the model parses for `"3*4"` at multiplicative level (used
by the C3 witness). -/
def c3treeM : PNode :=
  .exprNode .null (.objNode none 3 .null) .TIMES
    (.exprNode .null (.objNode none 4 .null) .NOOP .null)

theorem C3_precedence_witness :
    (find_first_free_opt ['2', '+', '3', '*', '4'] 5 (opcharsOf .A_OP) = .ok (some 1) ∧
      parse_expr ['2', '+', '3', '*', '4'] 5 .A_OP = .ok c3tree ∧
      ∃ lh rh,
        c3tree = .exprNode lh .null (parse_operator (['2', '+', '3', '*', '4'].getD 1 ' ')) rh ∧
        parse_expr ['2', '+', '3', '*', '4'] 1 .M_OP = .ok lh) ∧
    (find_first_free_opt ['3', '*', '4'] 3 (opcharsOf .M_OP) = .ok (some 1) ∧
      parse_expr ['3', '*', '4'] 3 .M_OP = .ok c3treeM ∧
      ∃ ob rh,
        c3treeM = .exprNode .null ob (parse_operator (['3', '*', '4'].getD 1 ' ')) rh ∧
        parse_obj ['3', '*', '4'] 1 = .ok ob) :=
  ⟨⟨by decide, by decide,
      C3_precedence.1 ['2', '+', '3', '*', '4'] 5 1 c3tree (by decide) (by decide)⟩,
    ⟨by decide, by decide,
      C3_precedence.2.1 ['3', '*', '4'] 3 1 c3treeM (by decide) (by decide)⟩⟩

/-! ## Claim C9: unbalanced parentheses -/

/-- The only error the scanner ever produces is
`MismatchedParentheses`. -/
theorem ffo_aux_error_eq (opchars : List Char) :
    ∀ (inp : List Char) (len pos depth : Nat) (e : ParseError),
      ffo_aux opchars inp len pos depth = .error e → e = .MismatchedParentheses := by
  intro inp
  induction inp with
  | nil =>
    intro len pos depth e h
    cases len <;> simp only [ffo_aux] at h <;> split at h <;> simp_all
  | cons c rest ih =>
    intro len pos depth e h
    cases len with
    | zero => simp only [ffo_aux] at h; split at h <;> simp_all
    | succ n =>
      simp only [ffo_aux] at h
      split at h
      · split at h
        · exact ih n (pos + 1) (depth + 1) e h
        · split at h
          · split at h
            · simp_all
            · exact ih n (pos + 1) (depth - 1) e h
          · split at h
            · simp at h
            · exact ih n (pos + 1) depth e h
      · exact ih n (pos + 1) depth e h

/-- C9: when the scan of a span fails — a `')'` that would take the
depth below zero, or end of scan at nonzero depth — the failure is
`MismatchedParentheses` (the scanner produces no other error), and
`parse_expr` on that span returns no tree but exactly that error; in
particular both `"(1+2"` and `"1+2)"` fail with
`MismatchedParentheses`. -/
theorem C9_mismatched_parens :
    (∀ (inp : List Char) (len : Nat) (opchars : List Char) (e : ParseError),
        find_first_free_opt inp len opchars = .error e → e = .MismatchedParentheses) ∧
    (∀ (inp : List Char) (len : Nat) (t : OpType) (e : ParseError),
        len ≠ 0 →
        find_first_free_opt inp len (opcharsOf t) = .error e →
        parse_expr inp len t = .error e) ∧
    parse_expr ['(', '1', '+', '2'] 4 .A_OP = .error .MismatchedParentheses ∧
    parse_expr ['1', '+', '2', ')'] 4 .A_OP = .error .MismatchedParentheses := by
  refine ⟨?_, ?_, by decide, by decide⟩
  · intro inp len opchars e h
    exact ffo_aux_error_eq opchars inp len 0 0 e h
  · intro inp len t e h0 hfind
    rw [parse_expr_eq]
    unfold parse_expr_body
    rw [if_neg h0]
    simp only [hfind]

theorem C9_mismatched_parens_witness :
    (find_first_free_opt ['(', '1', '+', '2'] 4 (opcharsOf .A_OP) =
        .error .MismatchedParentheses →
      ParseError.MismatchedParentheses = .MismatchedParentheses) ∧
    ((4 : Nat) ≠ 0 ∧
      find_first_free_opt ['(', '1', '+', '2'] 4 (opcharsOf .A_OP) =
        .error .MismatchedParentheses ∧
      parse_expr ['(', '1', '+', '2'] 4 .A_OP = .error .MismatchedParentheses) :=
  ⟨fun h => C9_mismatched_parens.1 ['(', '1', '+', '2'] 4 (opcharsOf .A_OP)
      .MismatchedParentheses h,
    by decide, by decide,
    C9_mismatched_parens.2.1 ['(', '1', '+', '2'] 4 .A_OP .MismatchedParentheses
      (by decide) (by decide)⟩

/-! ## Claims C7 and C8: modifier and roll constants -/

/-- Numeric value of an all-digit string, as the spec describes it
("parse to the modifier's integer constant"). -/
def digitsValue (s : List Char) : Nat :=
  s.foldl (fun a c => a * 10 + (c.toNat - 48)) 0

theorem digit_not_space {c : Char} (h : c ∈ digitChars) : isSpaceC c = false := by
  fin_cases h <;> rfl

theorem digit_ne_minus {c : Char} (h : c ∈ digitChars) : c ≠ '-' := by
  fin_cases h <;> decide

theorem digit_ne_plus {c : Char} (h : c ∈ digitChars) : c ≠ '+' := by
  fin_cases h <;> decide

theorem leadingNum_all_digits :
    ∀ (s : List Char), s.all (· ∈ digitChars) = true →
      ∀ acc, leadingNum s acc = s.foldl (fun a c => a * 10 + (c.toNat - 48)) acc := by
  intro s
  induction s with
  | nil => intro _ acc; rfl
  | cons c rest ih =>
    intro h acc
    simp only [List.all_cons, Bool.and_eq_true, decide_eq_true_eq] at h
    simp only [leadingNum, List.foldl_cons, if_pos h.1]
    exact ih (by simpa using h.2) _

/-- `atoi` of an all-digit string is its numeric value. -/
theorem atoi_all_digits (s : List Char) (h : s.all (· ∈ digitChars) = true) :
    atoi s = (digitsValue s : Int) := by
  cases s with
  | nil => rfl
  | cons c rest =>
    simp only [List.all_cons, Bool.and_eq_true, decide_eq_true_eq] at h
    unfold atoi
    rw [List.dropWhile_cons_of_neg (by simp [digit_not_space h.1])]
    show (if c = '-' then -(leadingNum rest 0 : Int)
        else if c = '+' then (leadingNum rest 0 : Int)
        else (leadingNum (c :: rest) 0 : Int)) = (digitsValue (c :: rest) : Int)
    rw [if_neg (digit_ne_minus h.1), if_neg (digit_ne_plus h.1)]
    unfold digitsValue
    rw [leadingNum_all_digits (c :: rest) (by simp [h.1, h.2]) 0]

/-- C7 counterexample: the claim "for every input whose suffix after the
modifier letter contains a non-digit character, parse_modifier fails"
is false: `"c2x"` parses successfully (the source applies `atoi` to the
suffix without any digit validation), yielding `ChooseHighest(2)`. -/
theorem C7_counterexample :
    parse_modifier ['c', '2', 'x'] 3 = .ok ⟨.CHOOSE_HIGH, 2⟩ ∧
    'x' ∈ (['c', '2', 'x'].drop 1).take (3 - 1) ∧ 'x' ∉ digitChars := by
  refine ⟨by decide, by decide, by decide⟩

/-- C7 (amended): for an input whose first character is one of
`c,b,v,w`, `parse_modifier` succeeds *iff* the suffix after the letter
is non-empty (`len ≥ 2`; `len = 1` fails `MissingModifierConstant`);
it performs no digit validation: the parsed constant is the `atoi`
value of the suffix, which for an all-digit suffix equals its numeric
value. -/
theorem C7_modifier_constant :
    (∀ (inp : List Char) (len : Nat),
        inp.getD 0 ' ' ∈ ['c', 'b', 'v', 'w'] → 2 ≤ len →
        ∃ md, parse_modifier inp len = .ok md ∧
          md.constant = atoi ((inp.drop 1).take (len - 1))) ∧
    (∀ inp : List Char, inp.getD 0 ' ' ∈ ['c', 'b', 'v', 'w'] →
        parse_modifier inp 1 = .error .MissingModifierConstant) ∧
    (∀ s : List Char, s.all (· ∈ digitChars) = true → atoi s = (digitsValue s : Int)) := by
  refine ⟨?_, ?_, atoi_all_digits⟩
  · intro inp len hmem hlen
    have h0 : len ≠ 0 := by omega
    have h2 : ¬len < 2 := by omega
    unfold parse_modifier
    rw [if_neg h0]
    simp only [List.mem_cons, List.not_mem_nil, or_false] at hmem
    rcases hmem with hch | hch | hch | hch <;>
      rw [hch] <;> simp only [reduceIte, if_neg h2] <;> exact ⟨_, rfl, rfl⟩
  · intro inp hmem
    unfold parse_modifier
    simp only [List.mem_cons, List.not_mem_nil, or_false] at hmem
    rcases hmem with hch | hch | hch | hch <;> rw [hch] <;> rfl

theorem C7_modifier_constant_witness :
    (['c', '2', 'x'].getD 0 ' ' ∈ ['c', 'b', 'v', 'w']) ∧ (2 : Nat) ≤ 3 ∧
    ∃ md, parse_modifier ['c', '2', 'x'] 3 = .ok md ∧
      md.constant = atoi ((['c', '2', 'x'].drop 1).take (3 - 1)) :=
  ⟨by decide, by decide, C7_modifier_constant.1 ['c', '2', 'x'] 3 (by decide) (by decide)⟩

/-- C8 counterexample: `parse_roll` accepts a zero die count — `"0d6"`
parses successfully with `dieCount = 0` (the source only checks the
substrings are non-empty and all-digit), so the claimed invariant
`dieCount ≥ 1 ∧ dieSides ≥ 1` is false. -/
theorem C8_counterexample :
    ¬ (∀ (inp : List Char) (len : Nat) (r : RollNode),
        parse_roll inp len = .ok r → 1 ≤ r.dieCount ∧ 1 ≤ r.dieSides) :=
  fun h => absurd (h ['0', 'd', '6'] 3 ⟨0, 6, none⟩ (by decide)).1 (by decide)

/-- C8 (amended): every `RollNode` produced by a successful `parse_roll`
has *non-negative* die count and die sides (the substrings are checked
non-empty and all-digit, and `atoi` of an all-digit string is its
numeric value, which is ≥ 0); zero is accepted, e.g. `"0d6"`. -/
theorem C8_roll_constants_nonneg (inp : List Char) (len : Nat) (r : RollNode)
    (h : parse_roll inp len = .ok r) : 0 ≤ r.dieCount ∧ 0 ≤ r.dieSides := by
  unfold parse_roll at h
  split at h
  · exact Except.noConfusion h
  · split at h
    · exact Except.noConfusion h
    · split at h
      · exact Except.noConfusion h
      · split at h
        · exact Except.noConfusion h
        · split at h
          · exact Except.noConfusion h
          · split at h
            · exact Except.noConfusion h
            · rename_i hdig
              rw [not_not] at hdig
              cases h
              refine ⟨?_, ?_⟩
              · rw [atoi_all_digits _ hdig.1]
                exact Int.natCast_nonneg _
              · rw [atoi_all_digits _ hdig.2]
                exact Int.natCast_nonneg _

theorem C8_roll_constants_nonneg_witness :
    parse_roll ['3', 'd', '6'] 3 = .ok ⟨3, 6, none⟩ ∧
    0 ≤ (RollNode.mk 3 6 none).dieCount ∧ 0 ≤ (RollNode.mk 3 6 none).dieSides :=
  ⟨by decide, C8_roll_constants_nonneg ['3', 'd', '6'] 3 ⟨3, 6, none⟩ (by decide)⟩

/-! ## Claims C4 and C5: reroll-below and exploding rolls -/

/-- Helper: `sum_up` over a `foldl` accumulator. -/
theorem sum_up_foldl (l : List Int) : ∀ a : Int, l.foldl (· + ·) a = a + sum_up l := by
  induction l with
  | nil =>
    intro a
    show a = a + (0 : Int)
    ring
  | cons v l ih =>
    intro a
    show l.foldl (· + ·) (a + v) = a + sum_up (v :: l)
    have h2 : sum_up (v :: l) = (0 + v) + sum_up l := by
      show l.foldl (· + ·) (0 + v) = (0 + v) + sum_up l
      exact ih (0 + v)
    rw [ih (a + v), h2]
    ring

theorem sum_up_cons (v : Int) (l : List Int) : sum_up (v :: l) = v + sum_up l := by
  show l.foldl (· + ·) (0 + v) = v + sum_up l
  rw [sum_up_foldl l (0 + v)]
  ring

/-- Spec-side description of one reroll-below die, following the
claim's words: the die's value is the **first** drawn value strictly
greater than the threshold; every draw `≤ threshold` is discarded and
redrawn. -/
def firstAbove (dieSides rerollThresh : Int) : List Nat → Option (Int × List Nat)
  | [] => none
  | r :: rest =>
    if rerollThresh < draw dieSides r then some (draw dieSides r, rest)
    else firstAbove dieSides rerollThresh rest

/-- Spec-side description of a reroll-below roll: each of the `count`
dice takes the first drawn value above the threshold, and the results
are summed. -/
def reroll_below_spec (dieSides rerollThresh : Int) : Nat → List Nat → Option (Int × List Nat)
  | 0, rng => some (0, rng)
  | n + 1, rng =>
    match firstAbove dieSides rerollThresh rng with
    | none => none
    | some (v, rng') =>
      match reroll_below_spec dieSides rerollThresh n rng' with
      | none => none
      | some (s, rng'') => some (v + s, rng'')

theorem firstAbove_cons (dieSides rerollThresh : Int) (r : Nat) (rest : List Nat) :
    firstAbove dieSides rerollThresh (r :: rest) =
      if rerollThresh < draw dieSides r then some (draw dieSides r, rest)
      else firstAbove dieSides rerollThresh rest := rfl

theorem reroll_while_eq (dieSides rerollThresh : Int) :
    ∀ (rng : List Nat) (roll : Int),
      reroll_while dieSides rerollThresh roll rng =
        if roll ≤ rerollThresh then firstAbove dieSides rerollThresh rng
        else some (roll, rng) := by
  intro rng
  induction rng with
  | nil => intro roll; rfl
  | cons r rest ih =>
    intro roll
    have hrw : reroll_while dieSides rerollThresh roll (r :: rest) =
        if roll ≤ rerollThresh then reroll_while dieSides rerollThresh (draw dieSides r) rest
        else some (roll, r :: rest) := rfl
    rw [hrw]
    by_cases h : roll ≤ rerollThresh
    · rw [if_pos h, if_pos h, ih (draw dieSides r), firstAbove_cons]
      by_cases h2 : rerollThresh < draw dieSides r
      · rw [if_pos h2, if_neg (by omega)]
      · rw [if_neg h2, if_pos (by omega)]
    · rw [if_neg h, if_neg h]

theorem reroll_loop_succ (dieSides rerollThresh : Int) (n : Nat) (r : Nat) (rest : List Nat) :
    reroll_loop dieSides rerollThresh (n + 1) (r :: rest) =
      match reroll_while dieSides rerollThresh (draw dieSides r) rest with
      | none => none
      | some (v, rng') =>
        match reroll_loop dieSides rerollThresh n rng' with
        | none => none
        | some (vs, rng'') => some (v :: vs, rng'') := rfl

theorem reroll_below_spec_succ (dieSides rerollThresh : Int) (n : Nat) (rng : List Nat) :
    reroll_below_spec dieSides rerollThresh (n + 1) rng =
      match firstAbove dieSides rerollThresh rng with
      | none => none
      | some (v, rng') =>
        match reroll_below_spec dieSides rerollThresh n rng' with
        | none => none
        | some (s, rng'') => some (v + s, rng'') := rfl

/-- C4: `execute_reroll_below_roll` computes exactly the spec-side
description — each of the `count` dice receives the first drawn value
strictly greater than the threshold (every draw `≤ threshold` is
discarded and redrawn) and the result is the sum of these per-die
values; the executor returns `none` only when the finite draw stream
runs out, so whenever each die eventually yields a value above the
threshold the sum is as described.  In particular `"1d6b3"` with draw
sequence `[2,2,5]` (raw values `[1,1,4]`) evaluates to `5`. -/
theorem C4_reroll_below :
    (∀ (dieCount dieSides rerollThresh : Int) (rng : List Nat),
        execute_reroll_below_roll dieCount dieSides rerollThresh rng =
          reroll_below_spec dieSides rerollThresh dieCount.toNat rng) ∧
    parse_and_exec ['1', 'd', '6', 'b', '3'] [1, 1, 4] = some (5, []) := by
  refine ⟨?_, by decide⟩
  intro dieCount dieSides rerollThresh rng
  unfold execute_reroll_below_roll
  generalize dieCount.toNat = n
  induction n generalizing rng with
  | zero => rfl
  | succ n ih =>
    cases rng with
    | nil => rfl
    | cons r rest =>
      rw [reroll_loop_succ, reroll_while_eq dieSides rerollThresh rest (draw dieSides r),
        reroll_below_spec_succ]
      have hfa : (if draw dieSides r ≤ rerollThresh
          then firstAbove dieSides rerollThresh rest
          else some (draw dieSides r, rest)) =
          firstAbove dieSides rerollThresh (r :: rest) := by
        rw [firstAbove_cons]
        by_cases h2 : rerollThresh < draw dieSides r
        · rw [if_pos h2, if_neg (by omega)]
        · rw [if_neg h2, if_pos (by omega)]
      rw [hfa]
      cases hf : firstAbove dieSides rerollThresh (r :: rest) with
      | none => rfl
      | some p =>
        obtain ⟨v, rng'⟩ := p
        dsimp only
        rw [← ih rng']
        cases hl : reroll_loop dieSides rerollThresh n rng' with
        | none => rfl
        | some q =>
          obtain ⟨vs, rng''⟩ := q
          simp only [hl, sum_up_cons]

/-- Spec-side description of one exploding die, following the claim's
words: the per-die total is the sum of the prefix of draws up to and
including the first drawn value **below** the threshold (every draw
`≥ threshold` "explodes" into a further draw that is also added). -/
def explodePrefix (dieSides explodeThresh : Int) : List Nat → Option (Int × List Nat)
  | [] => none
  | r :: rest =>
    if draw dieSides r < explodeThresh then some (draw dieSides r, rest)
    else
      match explodePrefix dieSides explodeThresh rest with
      | none => none
      | some (t, rng') => some (draw dieSides r + t, rng')

/-- Spec-side description of an exploding roll: the sum over the
`count` dice of the per-die exploding totals. -/
def explode_spec (dieSides explodeThresh : Int) : Nat → List Nat → Option (Int × List Nat)
  | 0, rng => some (0, rng)
  | n + 1, rng =>
    match explodePrefix dieSides explodeThresh rng with
    | none => none
    | some (t, rng') =>
      match explode_spec dieSides explodeThresh n rng' with
      | none => none
      | some (s, rng'') => some (t + s, rng'')

theorem explodePrefix_cons (dieSides explodeThresh : Int) (r : Nat) (rest : List Nat) :
    explodePrefix dieSides explodeThresh (r :: rest) =
      if draw dieSides r < explodeThresh then some (draw dieSides r, rest)
      else
        match explodePrefix dieSides explodeThresh rest with
        | none => none
        | some (t, rng') => some (draw dieSides r + t, rng') := rfl

theorem explode_while_eq (dieSides explodeThresh : Int) :
    ∀ (rng : List Nat) (total roll : Int),
      explode_while dieSides explodeThresh total roll rng =
        if roll < explodeThresh then some (total, rng)
        else
          match explodePrefix dieSides explodeThresh rng with
          | none => none
          | some (t, rng') => some (total + t, rng') := by
  intro rng
  induction rng with
  | nil =>
    intro total roll
    have hrw : explode_while dieSides explodeThresh total roll [] =
        if explodeThresh ≤ roll then none else some (total, []) := rfl
    rw [hrw]
    by_cases h : roll < explodeThresh
    · rw [if_neg (by omega), if_pos h]
    · rw [if_pos (by omega), if_neg h]
      rfl
  | cons r rest ih =>
    intro total roll
    have hrw : explode_while dieSides explodeThresh total roll (r :: rest) =
        if explodeThresh ≤ roll then
          explode_while dieSides explodeThresh (total + draw dieSides r) (draw dieSides r) rest
        else some (total, r :: rest) := rfl
    rw [hrw]
    by_cases h : explodeThresh ≤ roll
    · rw [if_pos h, ih (total + draw dieSides r) (draw dieSides r),
        if_neg (show ¬roll < explodeThresh by omega), explodePrefix_cons]
      by_cases h2 : draw dieSides r < explodeThresh
      · simp only [if_pos h2]
      · simp only [if_neg h2]
        cases hp : explodePrefix dieSides explodeThresh rest with
        | none => simp only [hp]
        | some q =>
          obtain ⟨t, rng'⟩ := q
          simp only [hp]
          rw [Int.add_assoc]
    · rw [if_neg h, if_pos (by omega)]

theorem explode_loop_succ (dieSides explodeThresh : Int) (n : Nat) (r : Nat) (rest : List Nat) :
    explode_loop dieSides explodeThresh (n + 1) (r :: rest) =
      match explode_while dieSides explodeThresh (draw dieSides r) (draw dieSides r) rest with
      | none => none
      | some (t, rng') =>
        match explode_loop dieSides explodeThresh n rng' with
        | none => none
        | some (ts, rng'') => some (t :: ts, rng'') := rfl

theorem explode_spec_succ (dieSides explodeThresh : Int) (n : Nat) (rng : List Nat) :
    explode_spec dieSides explodeThresh (n + 1) rng =
      match explodePrefix dieSides explodeThresh rng with
      | none => none
      | some (t, rng') =>
        match explode_spec dieSides explodeThresh n rng' with
        | none => none
        | some (s, rng'') => some (t + s, rng'') := rfl

/-- C5: `execute_exploding_roll` computes exactly the spec-side
description — each of the `count` dice draws one value and adds it to
its per-die total, and while the most recent draw is `≥ threshold` it
draws again and adds that too, so the per-die total is the sum of the
prefix of draws through the first value below the threshold; the
returned result is the sum of the per-die totals (`none` only when the
finite draw stream runs out).  In particular `"1d6v6"` with draw
sequence `[6,6,2]` (raw values `[5,5,1]`) evaluates to `14`. -/
theorem C5_exploding :
    (∀ (dieCount dieSides explodeThresh : Int) (rng : List Nat),
        execute_exploding_roll dieCount dieSides explodeThresh rng =
          explode_spec dieSides explodeThresh dieCount.toNat rng) ∧
    parse_and_exec ['1', 'd', '6', 'v', '6'] [5, 5, 1] = some (14, []) := by
  refine ⟨?_, by decide⟩
  intro dieCount dieSides explodeThresh rng
  unfold execute_exploding_roll
  generalize dieCount.toNat = n
  induction n generalizing rng with
  | zero => rfl
  | succ n ih =>
    cases rng with
    | nil => rfl
    | cons r rest =>
      rw [explode_loop_succ,
        explode_while_eq dieSides explodeThresh rest (draw dieSides r) (draw dieSides r),
        explode_spec_succ]
      have hfa : (if draw dieSides r < explodeThresh
          then some (draw dieSides r, rest)
          else
            match explodePrefix dieSides explodeThresh rest with
            | none => none
            | some (t, rng') => some (draw dieSides r + t, rng')) =
          explodePrefix dieSides explodeThresh (r :: rest) :=
        (explodePrefix_cons dieSides explodeThresh r rest).symm
      rw [hfa]
      cases hf : explodePrefix dieSides explodeThresh (r :: rest) with
      | none => rfl
      | some p =>
        obtain ⟨t, rng'⟩ := p
        dsimp only
        rw [← ih rng']
        cases hl : explode_loop dieSides explodeThresh n rng' with
        | none => rfl
        | some q =>
          obtain ⟨ts, rng''⟩ := q
          simp only [hl, sum_up_cons]

/-! ## Claim C6: choose-N with fewer dice than chosen slots -/

/-- C6 (code bug): when `dieCount < nChoose`, the final
`sum_up(rolls, nChoose)` (dice.c:489) reads buffer slots that were
never written — `STACK_ALLOC(int, rolls, nChoose+1)` is uninitialized
stack memory, and the draw loop writes only `dieCount` slots.  With the
indeterminate slot contents exposed as the `garbage` parameter:
`1d6c2` with the single drawn value `4` returns `4 + g` where `g` is
the first unwritten slot's content — all-zero garbage gives `4`, but
garbage `[100]` gives `104`, so the result is not the sum of exactly
the drawn values (reading indeterminate stack values is undefined
behaviour in C). -/
theorem C6_uninitialized_read :
    execute_choose_n_roll 1 6 2 compare_roll_high [0] [3] = some (4, []) ∧
    execute_choose_n_roll 1 6 2 compare_roll_high [100] [3] = some (104, []) :=
  ⟨by decide, by decide⟩

/-! ## Claim C1: choose-highest / choose-lowest compute a top-N sum

The C buffer algorithm (fill the first `n` slots, then repeatedly
append-and-resort, dropping the worst slot) is proved to compute the
sum of the `n` best drawn values.  `qsort` with `compare_roll_high` /
`compare_roll_low` produces the unique list sorted by the corresponding
total order (ties are equal integers), modelled by `csort`; the proofs
relate it to `List.insertionSort` over the order relation. -/

/-- Descending order on `Int` ("`a` before `b` iff `b ≤ a`"), the sort
order induced by `compare_roll_high`. -/
def geRel (a b : Int) : Prop := b ≤ a

instance : DecidableRel geRel := fun a b => (inferInstance : Decidable (b ≤ a))

instance : IsTotal Int geRel := ⟨fun a b => le_total b a⟩

instance : IsTrans Int geRel := ⟨fun _ _ _ h₁ h₂ => le_trans h₂ h₁⟩

instance : IsAntisymm Int geRel := ⟨fun _ _ h₁ h₂ => le_antisymm h₂ h₁⟩

theorem orderedInsert_congr (r s : Int → Int → Prop) [DecidableRel r] [DecidableRel s]
    (h : ∀ a b, r a b ↔ s a b) (a : Int) :
    ∀ l : List Int, l.orderedInsert r a = l.orderedInsert s a := by
  intro l
  induction l with
  | nil => rfl
  | cons b l ih =>
    unfold List.orderedInsert
    by_cases hr : r a b
    · rw [if_pos hr, if_pos ((h a b).mp hr)]
    · rw [if_neg hr, if_neg (fun hs => hr ((h a b).mpr hs)), ih]

theorem insertionSort_congr (r s : Int → Int → Prop) [DecidableRel r] [DecidableRel s]
    (h : ∀ a b, r a b ↔ s a b) :
    ∀ l : List Int, l.insertionSort r = l.insertionSort s := by
  intro l
  induction l with
  | nil => rfl
  | cons a l ih =>
    show (l.insertionSort r).orderedInsert r a = (l.insertionSort s).orderedInsert s a
    rw [ih, orderedInsert_congr r s h a]

/-- `csort comp` agrees with `insertionSort` over any relation
equivalent to `comp · · ≤ 0`. -/
theorem csort_eq_insertionSort (comp : Int → Int → Int) (r : Int → Int → Prop) [DecidableRel r]
    (hc : ∀ a b, comp a b ≤ 0 ↔ r a b) (xs : List Int) :
    csort comp xs = xs.insertionSort r := by
  unfold csort
  exact insertionSort_congr _ r hc xs

/-- Key structural lemma for the sliding best-of-N buffer: inserting a
new element into only the first `n` slots of a list and truncating back
to `n` gives the same `n` slots as inserting into the whole list and
truncating. -/
theorem take_orderedInsert (r : Int → Int → Prop) [DecidableRel r] (a : Int) :
    ∀ (s : List Int) (n : Nat), n ≤ s.length →
      (List.orderedInsert r a (s.take n)).take n = (List.orderedInsert r a s).take n := by
  intro s
  induction s with
  | nil =>
    intro n h
    have : n = 0 := Nat.le_zero.mp h
    subst this
    rfl
  | cons b t ih =>
    intro n h
    cases n with
    | zero => rfl
    | succ m =>
      show (List.orderedInsert r a (b :: t.take m)).take (m + 1)
          = (List.orderedInsert r a (b :: t)).take (m + 1)
      unfold List.orderedInsert
      by_cases hr : r a b
      · rw [if_pos hr, if_pos hr]
        simp only [List.take_succ_cons]
        cases m with
        | zero => rfl
        | succ k =>
          simp only [List.take_succ_cons, List.take_take]
          rw [Nat.min_eq_left (by omega)]
      · rw [if_neg hr, if_neg hr]
        simp only [List.take_succ_cons]
        rw [ih m (by simpa using Nat.succ_le_succ_iff.mp h)]

/-- Sorting a sorted list with one extra element appended is an ordered
insertion. -/
theorem insertionSort_append_singleton (r : Int → Int → Prop) [DecidableRel r]
    [IsTotal Int r] [IsTrans Int r] [IsAntisymm Int r]
    (l : List Int) (hl : l.Sorted r) (x : Int) :
    List.insertionSort r (l ++ [x]) = List.orderedInsert r x l := by
  apply List.eq_of_perm_of_sorted (r := r)
  · exact (List.perm_insertionSort r _).trans
      ((List.perm_append_singleton x l).trans (List.perm_orderedInsert r x l).symm)
  · exact List.sorted_insertionSort r _
  · exact List.Sorted.orderedInsert x l hl

/-- One streaming step of the best-of-N buffer: re-sorting the kept `n`
best together with a new element and keeping `n` again equals keeping
the `n` best of all elements seen. -/
theorem topn_step (r : Int → Int → Prop) [DecidableRel r]
    [IsTotal Int r] [IsTrans Int r] [IsAntisymm Int r]
    (n : Nat) (seen : List Int) (x : Int) (h : n ≤ seen.length) :
    (List.insertionSort r ((List.insertionSort r seen).take n ++ [x])).take n
      = (List.insertionSort r (seen ++ [x])).take n := by
  have hsorted : (List.insertionSort r seen).Sorted r := List.sorted_insertionSort r seen
  have hslen : n ≤ (List.insertionSort r seen).length := by
    rw [List.length_insertionSort]; exact h
  have h1 : List.insertionSort r ((List.insertionSort r seen).take n ++ [x])
      = List.orderedInsert r x ((List.insertionSort r seen).take n) :=
    insertionSort_append_singleton r _
      (List.Pairwise.sublist (List.take_sublist n _) hsorted) x
  have h2 : List.insertionSort r (seen ++ [x])
      = List.orderedInsert r x (List.insertionSort r seen) := by
    apply List.eq_of_perm_of_sorted (r := r)
    · exact (List.perm_insertionSort r _).trans
        ((List.perm_append_singleton x seen).trans
          ((List.Perm.cons x (List.perm_insertionSort r seen).symm).trans
            (List.perm_orderedInsert r x _).symm))
    · exact List.sorted_insertionSort r _
    · exact List.Sorted.orderedInsert x _ hsorted
  rw [h1, h2, take_orderedInsert r x _ n hslen]

/-- Invariant of the choose-N draw loop: while fewer than `n` draws
have happened the buffer holds exactly the draws in order, afterwards
it holds the `n` best (in sort order) of all draws seen. -/
def ChooseInv (r : Int → Int → Prop) [DecidableRel r] (n : Nat) (written seen : List Int) :
    Prop :=
  (written = seen ∧ seen.length ≤ n) ∨
  (written = (List.insertionSort r seen).take n ∧ n ≤ seen.length)

theorem choose_step_inv (comp : Int → Int → Int) (r : Int → Int → Prop) [DecidableRel r]
    [IsTotal Int r] [IsTrans Int r] [IsAntisymm Int r]
    (hc : ∀ a b, comp a b ≤ 0 ↔ r a b) (n : Nat) (written seen : List Int) (v : Int)
    (hinv : ChooseInv r n written seen) :
    ChooseInv r n (choose_step comp n written v) (seen ++ [v]) := by
  unfold choose_step
  rcases hinv with ⟨hw, hlen⟩ | ⟨hw, hlen⟩
  · rw [hw]
    by_cases hfill : seen.length < n
    · rw [if_pos hfill]
      exact Or.inl ⟨rfl, by simp; omega⟩
    · rw [if_neg hfill]
      refine Or.inr ⟨?_, by simp; omega⟩
      rw [csort_eq_insertionSort comp r hc]
  · rw [hw]
    have hwlen : ((List.insertionSort r seen).take n).length = n := by
      simp only [List.length_take, List.length_insertionSort]
      omega
    rw [if_neg (by omega)]
    refine Or.inr ⟨?_, by simp; omega⟩
    rw [csort_eq_insertionSort comp r hc]
    exact topn_step r n seen v hlen

theorem choose_loop_inv (comp : Int → Int → Int) (r : Int → Int → Prop) [DecidableRel r]
    [IsTotal Int r] [IsTrans Int r] [IsAntisymm Int r]
    (hc : ∀ a b, comp a b ≤ 0 ↔ r a b) (n : Nat) (sides : Int) :
    ∀ (cnt : Nat) (written seen : List Int) (rng : List Nat), cnt ≤ rng.length →
      ChooseInv r n written seen →
      ∃ w', choose_loop comp n sides cnt written rng = some (w', rng.drop cnt) ∧
        ChooseInv r n w' (seen ++ (rng.take cnt).map (draw sides)) := by
  intro cnt
  induction cnt with
  | zero =>
    intro written seen rng _ hinv
    exact ⟨written, rfl, by simpa using hinv⟩
  | succ cnt ih =>
    intro written seen rng hlen hinv
    cases rng with
    | nil => simp at hlen
    | cons rr rest =>
      have hstep : choose_loop comp n sides (cnt + 1) written (rr :: rest) =
          choose_loop comp n sides cnt (choose_step comp n written (draw sides rr)) rest := rfl
      rw [hstep]
      obtain ⟨w', hw, hinv'⟩ := ih (choose_step comp n written (draw sides rr))
        (seen ++ [draw sides rr]) rest (by simpa using hlen)
        (choose_step_inv comp r hc n written seen (draw sides rr) hinv)
      refine ⟨w', hw, ?_⟩
      rw [List.take_succ_cons, List.map_cons, List.append_cons]
      exact hinv'

theorem sum_up_eq_sum (l : List Int) : sum_up l = l.sum := by
  induction l with
  | nil => rfl
  | cons v l ih => rw [sum_up_cons, List.sum_cons, ih]

/-- Generic correctness of `execute_choose_n_roll` for a comparator
realising the total order `r`: with `1 ≤ nChoose ≤ dieCount` and enough
raw values, the result is the sum of the first `nChoose` slots of the
`r`-sorted list of all `dieCount` drawn values, the uninitialized
`garbage` never being read. -/
theorem choose_correct (comp : Int → Int → Int) (r : Int → Int → Prop) [DecidableRel r]
    [IsTotal Int r] [IsTrans Int r] [IsAntisymm Int r]
    (hc : ∀ a b, comp a b ≤ 0 ↔ r a b)
    (dieCount dieSides nChoose : Int) (garbage : List Int) (rng : List Nat)
    (h1 : 1 ≤ nChoose) (h2 : nChoose ≤ dieCount) (h3 : dieCount.toNat ≤ rng.length) :
    execute_choose_n_roll dieCount dieSides nChoose comp garbage rng =
      some (sum_up ((((rng.take dieCount.toNat).map (draw dieSides)).insertionSort r).take
        nChoose.toNat), rng.drop dieCount.toNat) := by
  unfold execute_choose_n_roll
  obtain ⟨w', hw, hinv⟩ := choose_loop_inv comp r hc nChoose.toNat dieSides dieCount.toNat
    [] [] rng h3 (Or.inl ⟨rfl, Nat.zero_le _⟩)
  rw [hw]
  dsimp only
  rw [List.nil_append] at hinv
  have hdlen : ((rng.take dieCount.toNat).map (draw dieSides)).length = dieCount.toNat := by
    simp only [List.length_map, List.length_take]
    omega
  have hnc : nChoose.toNat ≤ dieCount.toNat := Int.toNat_le_toNat h2
  rcases hinv with ⟨hweq, hlen2⟩ | ⟨hweq, hlen2⟩
  · rw [hdlen] at hlen2
    have hceq : dieCount.toNat = nChoose.toNat := by omega
    have hw'len : w'.length = nChoose.toNat := by rw [hweq, hdlen, hceq]
    rw [List.take_left' hw'len, hweq]
    have htake : (((rng.take dieCount.toNat).map (draw dieSides)).insertionSort r).take
        nChoose.toNat = ((rng.take dieCount.toNat).map (draw dieSides)).insertionSort r :=
      List.take_of_length_le (by rw [List.length_insertionSort, hdlen, hceq])
    rw [htake, sum_up_eq_sum, sum_up_eq_sum,
      (List.perm_insertionSort r ((rng.take dieCount.toNat).map (draw dieSides))).symm.sum_eq]
  · rw [hdlen] at hlen2
    have hw'len : w'.length = nChoose.toNat := by
      rw [hweq]
      simp only [List.length_take, List.length_insertionSort, hdlen]
      omega
    rw [List.take_left' hw'len, hweq]

/-- C1: with `n ≥ 1` and `dieCount ≥ n`, `execute_choose_n_roll`
returns exactly the sum of the `n` largest (for `compare_roll_high`,
descending order) resp. `n` smallest (for `compare_roll_low`, ascending
order) of the `dieCount` drawn values — independent of the
uninitialized buffer contents, and independent of the order in which
the values were drawn, since sorting is invariant under permutation of
the drawn values (second conjunct).  In particular `"4d6c2"` with draw
sequence `[1,6,3,4]` (raw values `[0,5,2,3]`) evaluates to
`6 + 4 = 10`. -/
theorem C1_choose_n :
    (∀ (dieCount dieSides nChoose : Int) (garbage : List Int) (rng : List Nat),
        1 ≤ nChoose → nChoose ≤ dieCount → dieCount.toNat ≤ rng.length →
        execute_choose_n_roll dieCount dieSides nChoose compare_roll_high garbage rng =
          some (sum_up ((((rng.take dieCount.toNat).map (draw dieSides)).insertionSort
            geRel).take nChoose.toNat), rng.drop dieCount.toNat) ∧
        execute_choose_n_roll dieCount dieSides nChoose compare_roll_low garbage rng =
          some (sum_up ((((rng.take dieCount.toNat).map (draw dieSides)).insertionSort
            (· ≤ · : Int → Int → Prop)).take nChoose.toNat), rng.drop dieCount.toNat)) ∧
    (∀ xs ys : List Int, xs.Perm ys →
        xs.insertionSort geRel = ys.insertionSort geRel ∧
        xs.insertionSort (· ≤ · : Int → Int → Prop) =
          ys.insertionSort (· ≤ · : Int → Int → Prop)) ∧
    parse_and_exec ['4', 'd', '6', 'c', '2'] [0, 5, 2, 3] = some (10, []) := by
  refine ⟨?_, ?_, by decide⟩
  · intro dieCount dieSides nChoose garbage rng h1 h2 h3
    constructor
    · exact choose_correct compare_roll_high geRel
        (by intro a b; unfold compare_roll_high geRel; omega)
        dieCount dieSides nChoose garbage rng h1 h2 h3
    · exact choose_correct compare_roll_low (· ≤ · : Int → Int → Prop)
        (by intro a b; unfold compare_roll_low; constructor <;> intro <;> omega)
        dieCount dieSides nChoose garbage rng h1 h2 h3
  · intro xs ys hp
    constructor <;>
      exact List.eq_of_perm_of_sorted
        ((List.perm_insertionSort _ xs).trans (hp.trans (List.perm_insertionSort _ ys).symm))
        (List.sorted_insertionSort _ xs) (List.sorted_insertionSort _ ys)

theorem C1_choose_n_witness :
    (1 : Int) ≤ 2 ∧ (2 : Int) ≤ 4 ∧ (4 : Int).toNat ≤ [0, 5, 2, 3].length ∧
    (execute_choose_n_roll 4 6 2 compare_roll_high [] [0, 5, 2, 3] =
      some (sum_up (((([0, 5, 2, 3].take (4 : Int).toNat).map (draw 6)).insertionSort
        geRel).take (2 : Int).toNat), [0, 5, 2, 3].drop (4 : Int).toNat) ∧
    execute_choose_n_roll 4 6 2 compare_roll_low [] [0, 5, 2, 3] =
      some (sum_up (((([0, 5, 2, 3].take (4 : Int).toNat).map (draw 6)).insertionSort
        (· ≤ · : Int → Int → Prop)).take (2 : Int).toNat), [0, 5, 2, 3].drop (4 : Int).toNat)) :=
  ⟨by decide, by decide, by decide,
    C1_choose_n.1 4 6 2 [] [0, 5, 2, 3] (by decide) (by decide) (by decide)⟩

/-! ## Claim C10: dependence of the parse on bytes beyond `length`

The C parser is *not* a function of only the first `length` bytes: the
all-digit test in `parse_obj` is `strspn(inp, "0123456789") == len`
(dice.c:212), and `strspn` scans the NUL-terminated buffer past `len`,
so a digit sitting immediately after the span flips the comparison.
All other scans (`strpbrk` in the scanner and the modifier lookup,
`strchr` for `'d'`) discard hits at positions `≥ len` and the copies
are length-bounded, so the *only* extra dependence is on whether a
digit immediately follows position `len`.  `boundaryDigit` captures
that bit, and `parse_f_congr` shows the parse depends on nothing else. -/

/-- Whether the buffer has a digit at position `len` (false when the
buffer ends there — the NUL terminator is not a digit). -/
def boundaryDigit (inp : List Char) (len : Nat) : Bool :=
  match inp[len]? with
  | none => false
  | some c => decide (c ∈ digitChars)

theorem take_eq_mono {l1 l2 : List Char} {len p : Nat}
    (h : l1.take len = l2.take len) (hp : p ≤ len) : l1.take p = l2.take p := by
  calc l1.take p = (l1.take len).take p := by rw [List.take_take, Nat.min_eq_left hp]
    _ = (l2.take len).take p := by rw [h]
    _ = l2.take p := by rw [List.take_take, Nat.min_eq_left hp]

theorem getElem?_eq_of_take_eq {l1 l2 : List Char} {len p : Nat}
    (h : l1.take len = l2.take len) (hp : p < len) : l1[p]? = l2[p]? := by
  have h1 : (l1.take len)[p]? = l1[p]? := by rw [List.getElem?_take, if_pos hp]
  have h2 : (l2.take len)[p]? = l2[p]? := by rw [List.getElem?_take, if_pos hp]
  rw [← h1, ← h2, h]

theorem getD_eq_of_take_eq {l1 l2 : List Char} {len p : Nat}
    (h : l1.take len = l2.take len) (hp : p < len) : l1.getD p ' ' = l2.getD p ' ' := by
  rw [List.getD_eq_getElem?_getD, List.getD_eq_getElem?_getD, getElem?_eq_of_take_eq h hp]

theorem take_drop_eq_of_take_eq {l1 l2 : List Char} {len k m : Nat}
    (h : l1.take len = l2.take len) (hkm : k + m ≤ len) :
    (l1.drop k).take m = (l2.drop k).take m := by
  rw [List.take_drop, List.take_drop, take_eq_mono h hkm]

theorem boundaryDigit_congr {l1 l2 : List Char} {len p : Nat}
    (h : l1.take len = l2.take len) (hp : p < len) :
    boundaryDigit l1 p = boundaryDigit l2 p := by
  unfold boundaryDigit
  rw [getElem?_eq_of_take_eq h hp]

theorem boundaryDigit_drop (l : List Char) (k m : Nat) :
    boundaryDigit (l.drop k) m = boundaryDigit l (k + m) := by
  unfold boundaryDigit
  rw [List.getElem?_drop]

/-- One-step unfolding of the scanner (holds definitionally). -/
theorem ffo_aux_cons (opchars : List Char) (c : Char) (rest : List Char)
    (len pos depth : Nat) :
    ffo_aux opchars (c :: rest) (len + 1) pos depth =
      (if c ∈ opchars then
        if c = '(' then ffo_aux opchars rest len (pos + 1) (depth + 1)
        else if c = ')' then
          if depth = 0 then .error .MismatchedParentheses
          else ffo_aux opchars rest len (pos + 1) (depth - 1)
        else if depth = 0 then .ok (some pos)
        else ffo_aux opchars rest len (pos + 1) depth
      else ffo_aux opchars rest len (pos + 1) depth) := rfl

/-- The scanner reads only the first `len` characters of the buffer. -/
theorem ffo_aux_congr (opchars : List Char) :
    ∀ (len : Nat) (l1 l2 : List Char) (pos depth : Nat),
      l1.take len = l2.take len →
      ffo_aux opchars l1 len pos depth = ffo_aux opchars l2 len pos depth := by
  intro len
  induction len with
  | zero => intro l1 l2 pos depth _; cases l1 <;> cases l2 <;> rfl
  | succ n ih =>
    intro l1 l2 pos depth h
    cases l1 with
    | nil =>
      cases l2 with
      | nil => rfl
      | cons c2 r2 => exact absurd h (by simp)
    | cons c1 r1 =>
      cases l2 with
      | nil => exact absurd h (by simp)
      | cons c2 r2 =>
        simp only [List.take_succ_cons, List.cons.injEq] at h
        obtain ⟨hc, ht⟩ := h
        subst hc
        have hrec : ∀ pos' depth',
            ffo_aux opchars r1 n pos' depth' = ffo_aux opchars r2 n pos' depth' :=
          fun p d => ih r1 r2 p d ht
        rw [ffo_aux_cons, ffo_aux_cons]
        simp only [hrec]

theorem find_first_free_opt_congr {l1 l2 : List Char} {len : Nat} (opchars : List Char)
    (h : l1.take len = l2.take len) :
    find_first_free_opt l1 len opchars = find_first_free_opt l2 len opchars :=
  ffo_aux_congr opchars len l1 l2 0 0 h

theorem strspn_zero_iff (l : List Char) :
    strspn digitChars l = 0 ↔ boundaryDigit l 0 = false := by
  cases l with
  | nil => simp [strspn, boundaryDigit]
  | cons c r =>
    unfold strspn boundaryDigit
    by_cases h : c ∈ digitChars <;> simp [h]

/-- The all-digit span test depends only on the first `len` characters
and whether a digit follows at position `len`. -/
theorem strspn_congr :
    ∀ (len : Nat) (l1 l2 : List Char),
      l1.take len = l2.take len → boundaryDigit l1 len = boundaryDigit l2 len →
      (strspn digitChars l1 = len ↔ strspn digitChars l2 = len) := by
  intro len
  induction len with
  | zero =>
    intro l1 l2 _ hb
    rw [strspn_zero_iff, strspn_zero_iff, hb]
  | succ n ih =>
    intro l1 l2 ht hb
    cases l1 with
    | nil =>
      cases l2 with
      | nil => exact Iff.rfl
      | cons c2 r2 => exact absurd ht (by simp)
    | cons c1 r1 =>
      cases l2 with
      | nil => exact absurd ht (by simp)
      | cons c2 r2 =>
        simp only [List.take_succ_cons, List.cons.injEq] at ht
        obtain ⟨hc, ht'⟩ := ht
        subst hc
        have hb' : boundaryDigit r1 n = boundaryDigit r2 n := by
          have e1 : boundaryDigit (c1 :: r1) (n + 1) = boundaryDigit r1 n := by
            unfold boundaryDigit; rw [List.getElem?_cons_succ]
          have e2 : boundaryDigit (c1 :: r2) (n + 1) = boundaryDigit r2 n := by
            unfold boundaryDigit; rw [List.getElem?_cons_succ]
          rw [← e1, ← e2]; exact hb
        unfold strspn
        by_cases h : c1 ∈ digitChars
        · rw [if_pos h, if_pos h, Nat.add_right_cancel_iff, Nat.add_right_cancel_iff]
          exact ih r1 r2 ht' hb'
        · rw [if_neg h, if_neg h]

/-- With an empty span, every whole-buffer hit is discarded. -/
theorem strchr_view_zero (c : Char) (l : List Char) :
    (match strchr_idx c l with
      | none => none
      | some d => if d < 0 then some d else (none : Option Nat)) = none := by
  cases strchr_idx c l with
  | none => rfl
  | some d => simp

/-- The in-span view of a whole-buffer `strchr`: hits at positions
`≥ len` are indistinguishable from no hit.  This view depends only on
the first `len` characters. -/
theorem strchr_congr (c : Char) :
    ∀ (l1 : List Char) (l2 : List Char) (len : Nat),
      l1.take len = l2.take len →
      (match strchr_idx c l1 with
        | none => none
        | some d => if d < len then some d else (none : Option Nat)) =
      (match strchr_idx c l2 with
        | none => none
        | some d => if d < len then some d else none) := by
  intro l1
  induction l1 with
  | nil =>
    intro l2 len h
    cases l2 with
    | nil => rfl
    | cons c2 r2 =>
      have hlen : len = 0 := by
        cases len with
        | zero => rfl
        | succ m => exact absurd h (by simp)
      subst hlen
      rw [strchr_view_zero, strchr_view_zero]
  | cons c1 r1 ih =>
    intro l2 len h
    cases l2 with
    | nil =>
      have hlen : len = 0 := by
        cases len with
        | zero => rfl
        | succ m => exact absurd h (by simp)
      subst hlen
      rw [strchr_view_zero, strchr_view_zero]
    | cons c2 r2 =>
      cases len with
      | zero => rw [strchr_view_zero, strchr_view_zero]
      | succ n =>
        simp only [List.take_succ_cons, List.cons.injEq] at h
        obtain ⟨hc, ht⟩ := h
        subst hc
        show (match strchr_idx c (c1 :: r1) with
            | none => none
            | some d => if d < n + 1 then some d else none) = _
        unfold strchr_idx
        by_cases he : c1 = c
        · rw [if_pos he, if_pos he]
        · rw [if_neg he, if_neg he]
          have hih := ih r2 n ht
          rcases hr1 : strchr_idx c r1 with _ | d1 <;>
            rcases hr2 : strchr_idx c r2 with _ | d2 <;>
            rw [hr1, hr2] at hih <;>
            simp only [Option.map_none', Option.map_some'] at hih ⊢
          · by_cases hd2 : d2 < n
            · rw [if_pos hd2] at hih
              exact absurd hih (by simp)
            · rw [if_neg (show ¬d2 + 1 < n + 1 by omega)]
          · by_cases hd1 : d1 < n
            · rw [if_pos hd1] at hih
              exact absurd hih (by simp)
            · rw [if_neg (show ¬d1 + 1 < n + 1 by omega)]
          · by_cases hd1 : d1 < n
            · rw [if_pos hd1] at hih
              by_cases hd2 : d2 < n
              · rw [if_pos hd2] at hih
                simp only [Option.some.injEq] at hih
                subst hih
                rfl
              · rw [if_neg hd2] at hih
                exact absurd hih (by simp)
            · rw [if_neg hd1] at hih
              by_cases hd2 : d2 < n
              · rw [if_pos hd2] at hih
                exact absurd hih.symm (by simp)
              · rw [if_neg (show ¬d1 + 1 < n + 1 by omega),
                  if_neg (show ¬d2 + 1 < n + 1 by omega)]

/-- With an empty span, every whole-buffer hit is discarded. -/
theorem strpbrk_view_zero (set : List Char) (l : List Char) :
    (match strpbrk_idx set l with
      | none => none
      | some d => if d < 0 then some d else (none : Option Nat)) = none := by
  cases strpbrk_idx set l with
  | none => rfl
  | some d => simp

/-- The in-span view of a whole-buffer `strpbrk`: hits at positions
`≥ len` are indistinguishable from no hit.  This view depends only on
the first `len` characters. -/
theorem strpbrk_congr (set : List Char) :
    ∀ (l1 : List Char) (l2 : List Char) (len : Nat),
      l1.take len = l2.take len →
      (match strpbrk_idx set l1 with
        | none => none
        | some d => if d < len then some d else (none : Option Nat)) =
      (match strpbrk_idx set l2 with
        | none => none
        | some d => if d < len then some d else none) := by
  intro l1
  induction l1 with
  | nil =>
    intro l2 len h
    cases l2 with
    | nil => rfl
    | cons c2 r2 =>
      have hlen : len = 0 := by
        cases len with
        | zero => rfl
        | succ m => exact absurd h (by simp)
      subst hlen
      rw [strpbrk_view_zero, strpbrk_view_zero]
  | cons c1 r1 ih =>
    intro l2 len h
    cases l2 with
    | nil =>
      have hlen : len = 0 := by
        cases len with
        | zero => rfl
        | succ m => exact absurd h (by simp)
      subst hlen
      rw [strpbrk_view_zero, strpbrk_view_zero]
    | cons c2 r2 =>
      cases len with
      | zero => rw [strpbrk_view_zero, strpbrk_view_zero]
      | succ n =>
        simp only [List.take_succ_cons, List.cons.injEq] at h
        obtain ⟨hc, ht⟩ := h
        subst hc
        show (match strpbrk_idx set (c1 :: r1) with
            | none => none
            | some d => if d < n + 1 then some d else none) = _
        unfold strpbrk_idx
        by_cases he : c1 ∈ set
        · rw [if_pos he, if_pos he]
        · rw [if_neg he, if_neg he]
          have hih := ih r2 n ht
          rcases hr1 : strpbrk_idx set r1 with _ | d1 <;>
            rcases hr2 : strpbrk_idx set r2 with _ | d2 <;>
            rw [hr1, hr2] at hih <;>
            simp only [Option.map_none', Option.map_some'] at hih ⊢
          · by_cases hd2 : d2 < n
            · rw [if_pos hd2] at hih
              exact absurd hih (by simp)
            · rw [if_neg (show ¬d2 + 1 < n + 1 by omega)]
          · by_cases hd1 : d1 < n
            · rw [if_pos hd1] at hih
              exact absurd hih (by simp)
            · rw [if_neg (show ¬d1 + 1 < n + 1 by omega)]
          · by_cases hd1 : d1 < n
            · rw [if_pos hd1] at hih
              by_cases hd2 : d2 < n
              · rw [if_pos hd2] at hih
                simp only [Option.some.injEq] at hih
                subst hih
                rfl
              · rw [if_neg hd2] at hih
                exact absurd hih (by simp)
            · rw [if_neg hd1] at hih
              by_cases hd2 : d2 < n
              · rw [if_pos hd2] at hih
                exact absurd hih.symm (by simp)
              · rw [if_neg (show ¬d1 + 1 < n + 1 by omega),
                  if_neg (show ¬d2 + 1 < n + 1 by omega)]

theorem parse_modifier_congr {l1 l2 : List Char} {len : Nat}
    (h : l1.take len = l2.take len) :
    parse_modifier l1 len = parse_modifier l2 len := by
  by_cases hz : len = 0
  · subst hz; rfl
  · have hg : l1.getD 0 ' ' = l2.getD 0 ' ' := getD_eq_of_take_eq h (by omega)
    have hsuf : (l1.drop 1).take (len - 1) = (l2.drop 1).take (len - 1) :=
      take_drop_eq_of_take_eq h (by omega)
    unfold parse_modifier
    rw [hg, hsuf]

theorem parse_roll_mod_congr {l1 l2 : List Char} {len : Nat}
    (h : l1.take len = l2.take len) (h1 : len ≤ l1.length) (h2 : len ≤ l2.length) :
    parse_roll_mod l1 len = parse_roll_mod l2 len := by
  have hview := strpbrk_congr ['c', 'b', 'v', 'w'] l1 l2 len h
  unfold parse_roll_mod
  rcases hm1 : strpbrk_idx ['c', 'b', 'v', 'w'] l1 with _ | m1 <;>
    rcases hm2 : strpbrk_idx ['c', 'b', 'v', 'w'] l2 with _ | m2 <;>
    rw [hm1, hm2] at hview <;> dsimp only at hview ⊢
  · by_cases hlt : m2 < len
    · rw [if_pos hlt] at hview
      exact absurd hview (by simp)
    · rw [if_neg hlt]
  · by_cases hlt : m1 < len
    · rw [if_pos hlt] at hview
      exact absurd hview (by simp)
    · rw [if_neg hlt]
  · by_cases hlt1 : m1 < len
    · rw [if_pos hlt1] at hview
      by_cases hlt2 : m2 < len
      · rw [if_pos hlt2] at hview
        simp only [Option.some.injEq] at hview
        subst hview
        rw [if_pos hlt1, if_pos hlt1]
        rw [parse_modifier_congr (take_drop_eq_of_take_eq h (by omega))]
      · rw [if_neg hlt2] at hview
        exact absurd hview (by simp)
    · rw [if_neg hlt1] at hview
      by_cases hlt2 : m2 < len
      · rw [if_pos hlt2] at hview
        exact absurd hview.symm (by simp)
      · rw [if_neg hlt1, if_neg hlt2]

theorem parse_roll_congr {l1 l2 : List Char} {len : Nat}
    (h : l1.take len = l2.take len) (h1 : len ≤ l1.length) (h2 : len ≤ l2.length) :
    parse_roll l1 len = parse_roll l2 len := by
  unfold parse_roll
  by_cases hz : len = 0
  · rw [if_pos hz, if_pos hz]
  · rw [if_neg hz, if_neg hz]
    have hview := strchr_congr 'd' l1 l2 len h
    rcases hd1 : strchr_idx 'd' l1 with _ | d1 <;>
      rcases hd2 : strchr_idx 'd' l2 with _ | d2 <;>
      rw [hd1, hd2] at hview <;> dsimp only at hview ⊢
    · by_cases hlt : d2 < len
      · rw [if_pos hlt] at hview
        exact absurd hview (by simp)
      · rw [if_pos (show len ≤ d2 by omega)]
    · by_cases hlt : d1 < len
      · rw [if_pos hlt] at hview
        exact absurd hview (by simp)
      · rw [if_pos (show len ≤ d1 by omega)]
    · by_cases hlt1 : d1 < len
      · rw [if_pos hlt1] at hview
        by_cases hlt2 : d2 < len
        · rw [if_pos hlt2] at hview
          simp only [Option.some.injEq] at hview
          subst hview
          rw [if_neg (show ¬len ≤ d1 by omega), if_neg (show ¬len ≤ d1 by omega)]
          rw [parse_roll_mod_congr h h1 h2]
          cases hmod : parse_roll_mod l2 len with
          | error e => rfl
          | ok p =>
            obtain ⟨mod_chars, md⟩ := p
            dsimp only
            have hA : l1.take d1 = l2.take d1 := take_eq_mono h (le_of_lt hlt1)
            have hB : (l1.drop (d1 + 1)).take (len - (d1 + 1 + mod_chars)) =
                (l2.drop (d1 + 1)).take (len - (d1 + 1 + mod_chars)) :=
              take_drop_eq_of_take_eq h (by omega)
            rw [hA, hB]
        · rw [if_neg hlt2] at hview
          exact absurd hview (by simp)
      · rw [if_neg hlt1] at hview
        by_cases hlt2 : d2 < len
        · rw [if_pos hlt2] at hview
          exact absurd hview.symm (by simp)
        · rw [if_pos (show len ≤ d1 by omega), if_pos (show len ≤ d2 by omega)]

/-- The parser reads only the first `len` buffer bytes plus the
digit-ness of the byte at position `len` (through the `strspn` test in
the `parse_obj` constant branch). -/
theorem parse_f_congr :
    ∀ (fuel : Nat) (kind : PKind) (l1 l2 : List Char) (len : Nat),
      l1.take len = l2.take len →
      boundaryDigit l1 len = boundaryDigit l2 len →
      len ≤ l1.length → len ≤ l2.length →
      parse_f fuel kind l1 len = parse_f fuel kind l2 len := by
  intro fuel
  induction fuel with
  | zero => intro kind l1 l2 len _ _ _ _; rfl
  | succ fuel ih =>
    intro kind l1 l2 len hteq hb h1 h2
    cases kind with
    | kobj =>
      rw [parse_f_step_kobj, parse_f_step_kobj]
      by_cases hz : len = 0
      · rw [if_pos hz, if_pos hz]
      · rw [if_neg hz, if_neg hz]
        have hg0 : l1.getD 0 ' ' = l2.getD 0 ' ' := getD_eq_of_take_eq hteq (by omega)
        rw [hg0]
        by_cases hp : l2.getD 0 ' ' = '('
        · rw [if_pos hp, if_pos hp]
          have hglast : l1.getD (len - 1) ' ' = l2.getD (len - 1) ' ' :=
            getD_eq_of_take_eq hteq (by omega)
          rw [hglast]
          by_cases hcl : l2.getD (len - 1) ' ' ≠ ')'
          · rw [if_pos hcl, if_pos hcl]
          · rw [if_neg hcl, if_neg hcl]
            have hcl' : l2.getD (len - 1) ' ' = ')' := not_not.mp hcl
            have hlen2 : 2 ≤ len := by
              by_contra hlc
              have hl1 : len = 1 := by omega
              rw [hl1, show (1 : Nat) - 1 = 0 from rfl] at hcl'
              exact absurd (hp.symm.trans hcl') (by decide)
            have hrec := ih (.kexpr .A_OP) (l1.drop 1) (l2.drop 1) (len - 2)
              (take_drop_eq_of_take_eq hteq (by omega))
              (by rw [boundaryDigit_drop, boundaryDigit_drop]
                  exact boundaryDigit_congr hteq (by omega))
              (by rw [List.length_drop]; omega)
              (by rw [List.length_drop]; omega)
            rw [hrec]
        · rw [if_neg hp, if_neg hp]
          have hsp := strspn_congr len l1 l2 hteq hb
          by_cases hs1 : strspn digitChars l1 = len
          · rw [if_pos hs1, if_pos (hsp.mp hs1), hteq]
          · rw [if_neg hs1, if_neg (fun hh => hs1 (hsp.mpr hh))]
            rw [parse_roll_congr hteq h1 h2]
    | kexpr t =>
      rw [parse_f_step_kexpr, parse_f_step_kexpr]
      by_cases hz : len = 0
      · rw [if_pos hz, if_pos hz]
      · rw [if_neg hz, if_neg hz]
        rw [find_first_free_opt_congr (opcharsOf t) hteq]
        cases hfind : find_first_free_opt l2 len (opcharsOf t) with
        | error e => rfl
        | ok op =>
          cases op with
          | none =>
            dsimp only
            cases t with
            | A_OP => rw [ih (.kexpr .M_OP) l1 l2 len hteq hb h1 h2]
            | M_OP => rw [ih .kobj l1 l2 len hteq hb h1 h2]
          | some p =>
            have hplt : p < len := find_some_lt hfind
            dsimp only
            have hgp : l1.getD p ' ' = l2.getD p ' ' := getD_eq_of_take_eq hteq hplt
            have hrecR := ih (.kexpr t) (l1.drop (p + 1)) (l2.drop (p + 1)) (len - (p + 1))
              (take_drop_eq_of_take_eq hteq (by omega))
              (by rw [boundaryDigit_drop, boundaryDigit_drop,
                    show p + 1 + (len - (p + 1)) = len by omega]
                  exact hb)
              (by rw [List.length_drop]; omega)
              (by rw [List.length_drop]; omega)
            cases t with
            | A_OP =>
              have hrecL := ih (.kexpr .M_OP) l1 l2 p (take_eq_mono hteq (le_of_lt hplt))
                (boundaryDigit_congr hteq hplt) (by omega) (by omega)
              rw [hrecL, hrecR, hgp]
            | M_OP =>
              have hrecL := ih .kobj l1 l2 p (take_eq_mono hteq (le_of_lt hplt))
                (boundaryDigit_congr hteq hplt) (by omega) (by omega)
              rw [hrecL, hrecR, hgp]

/-- C10 counterexample: the parse does **not** depend only on the first
`L` bytes.  The buffers `"12"` and `"123"` agree on their first `L = 2`
bytes, yet the first parses as the constant `12` while the second fails:
`strspn` (dice.c:212) sees the digit `'3'` beyond the span, the
all-digit test `strspn == len` fails, and the span is treated as a roll
with no `'d'` delimiter. -/
theorem C10_counterexample :
    (['1', '2'] : List Char).take 2 = (['1', '2', '3'] : List Char).take 2 ∧
    parse_expr ['1', '2'] 2 .A_OP ≠ parse_expr ['1', '2', '3'] 2 .A_OP :=
  ⟨by decide, by decide⟩

/-- C10 (amended): the parse result depends only on the first `L` bytes
*plus* whether a digit immediately follows position `L` (that single
extra bit enters through the `strspn`-over-the-NUL-terminated-buffer
test in `parse_obj`): two valid buffers agreeing on the first `L` bytes
and on that bit parse identically at every level. -/
theorem C10_parse_window :
    ∀ (buf1 buf2 : List Char) (L : Nat) (t : OpType),
      buf1.take L = buf2.take L →
      boundaryDigit buf1 L = boundaryDigit buf2 L →
      L ≤ buf1.length → L ≤ buf2.length →
      parse_expr buf1 L t = parse_expr buf2 L t :=
  fun b1 b2 L t h hb h1 h2 => parse_f_congr (3 * L + 3) (.kexpr t) b1 b2 L h hb h1 h2

theorem C10_parse_window_witness :
    (['1', '2', 'x'] : List Char).take 2 = (['1', '2', 'y'] : List Char).take 2 ∧
    boundaryDigit ['1', '2', 'x'] 2 = boundaryDigit ['1', '2', 'y'] 2 ∧
    2 ≤ (['1', '2', 'x'] : List Char).length ∧ 2 ≤ (['1', '2', 'y'] : List Char).length ∧
    parse_expr ['1', '2', 'x'] 2 .A_OP = parse_expr ['1', '2', 'y'] 2 .A_OP :=
  ⟨by decide, by decide, by decide, by decide,
    C10_parse_window ['1', '2', 'x'] ['1', '2', 'y'] 2 .A_OP
      (by decide) (by decide) (by decide) (by decide)⟩
